import Mathlib

/-!
Shallow embedding of the `ghost` object store (Go) for specification checking.

Source files embedded:
  * `cache.go`  — `IndexCache` with random-slot eviction.
  * `index.go`  — per-shard metadata index (`meta`, `index`, `readIndex`,
                  `writeIndex`, `Store.PutMeta`, `Store.GetMeta`).
  * `store.go`  — `Store`, `Put`, `PutAll`, `Get`, `Flush`, `Close`, `Open`.
  * `schema.go` — the `Schema` codec interface.

Modelling conventions:
  * Go maps keyed by strings become association lists (`lookupA` / `insertA`).
  * File contents are `List Nat` (one `Nat` per byte of the segment file);
    the metadata-index files and the `conf` ledger hold structured data,
    matching the spec's "structured key-value persistence" scope note.
  * The filesystem is an explicit `Disk` value.  `Disk.ioErrs` injects
    per-file *read* failures (the error that `ioutil.ReadFile`/`ReadAt`
    would return), keyed by file name, carrying a numeric error code.
  * `rand.Intn capacity` results and the random shard names produced by
    `Store.indexName` are passed in as explicit parameters; theorems that
    depend on `rand.Intn capacity < capacity` take that as a hypothesis.
  * Go panics (`panic(err)` in `readIndex`/`writeIndex`/`Get`, slice
    out-of-bounds, `rand.Intn` with non-positive argument) are modelled by
    an explicit `panicked` result.
  * The mutex only serialises operations; the embedding is sequential, so
    it has no counterpart.  The `files` handle pool caches open segment
    handles; since `WriteAt`/`ReadAt` behave identically on a fresh or a
    cached handle, and index files are never stored in the pool (their
    names are distinct from segment names and from `conf`), the pool is
    not represented.
-/

namespace Ghost

/-- Lookup in an association list (a Go `map` keyed by strings). -/
def lookupA {α : Type} (l : List (String × α)) (k : String) : Option α :=
  match l with
  | [] => none
  | (k', v) :: rest => if k' = k then some v else lookupA rest k

/-- Insert/overwrite in an association list (Go `m[k] = v`). -/
def insertA {α : Type} (l : List (String × α)) (k : String) (v : α) :
    List (String × α) :=
  match l with
  | [] => [(k, v)]
  | (k', v') :: rest =>
      if k' = k then (k, v) :: rest else (k', v') :: insertA rest k v

theorem lookupA_insertA_self {α : Type} (l : List (String × α)) (k : String)
    (v : α) : lookupA (insertA l k v) k = some v := by
  induction l with
  | nil => simp [insertA, lookupA]
  | cons p rest ih =>
      obtain ⟨k', v'⟩ := p
      by_cases h : k' = k
      · simp [insertA, h, lookupA]
      · simp [insertA, h, lookupA, ih]

theorem lookupA_insertA_ne {α : Type} (l : List (String × α)) (k k' : String)
    (v : α) (h : k ≠ k') : lookupA (insertA l k v) k' = lookupA l k' := by
  induction l with
  | nil => simp [insertA, lookupA, h]
  | cons p rest ih =>
      obtain ⟨a, b⟩ := p
      by_cases ha : a = k
      · subst ha
        simp [insertA, lookupA, h, ih]
      · by_cases hb : a = k'
        · subst hb
          simp [insertA, ha, lookupA]
        · simp [insertA, ha, lookupA, hb, ih]

/-- `index.go`: `type meta struct { Index, Len, Offset int }`. -/
structure Meta where
  index : Nat
  len : Nat
  offset : Nat
deriving Repr, DecidableEq, Inhabited

/-- `index.go`: `type index map[identifier]meta` (one shard's metadata map). -/
abbrev IndexMap := List (String × Meta)

/-- `cache.go`: `type IndexCache struct { capacity int; lookup map[identifier]int; metadata []meta }`. -/
structure IndexCache where
  capacity : Nat
  lookup : List (String × Nat)
  metadata : List Meta
deriving Repr, DecidableEq

/-- `cache.go`: `NewIndexCache` — empty lookup, `make([]meta, capacity)`. -/
def NewIndexCache (capacity : Nat) : IndexCache :=
  { capacity := capacity
    lookup := []
    metadata := List.replicate capacity default }

/-- Result of `IndexCache.Get`: a hit returns `&metadata[v]`; a missing
identifier returns `nil`; an out-of-range slot value would be a Go slice
out-of-bounds panic. -/
inductive CacheGetRes where
  | hit : Meta → CacheGetRes
  | missing : CacheGetRes
  | panicked : CacheGetRes
deriving Repr, DecidableEq

/-- `cache.go`: `IndexCache.Get`. -/
def IndexCache.get (c : IndexCache) (id : String) : CacheGetRes :=
  match lookupA c.lookup id with
  | some v =>
      if h : v < c.metadata.length then .hit (c.metadata.get ⟨v, h⟩)
      else .panicked
  | none => .missing

/-- `cache.go`: `IndexCache.Put`.  `slot` stands for the value of
`rand.Intn i.capacity`, which for a positive capacity lies in
`[0, capacity)`; the store-level wrapper below models the panic of
`rand.Intn` on a non-positive capacity. -/
def IndexCache.put (c : IndexCache) (id : String) (m : Meta) (slot : Nat) :
    IndexCache :=
  { c with
    metadata := c.metadata.set slot m
    lookup := insertA c.lookup id slot }

/-- Iterate `IndexCache.Put` over a list of `(id, meta, slot)` operations. -/
def IndexCache.putOps (c : IndexCache) (ops : List (String × Meta × Nat)) :
    IndexCache :=
  match ops with
  | [] => c
  | (id, m, slot) :: rest => (c.put id m slot).putOps rest

/-- `schema.go`: the `Schema` interface, specialised to a value type `V`.
`marshal` returns `none` for an encode error; `unmarshal` returns `none`
for a decode error (Go writes the decoded value into the output pointer). -/
structure Schema (V : Type) where
  marshal : V → Option (List Nat)
  unmarshal : List Nat → Option V

/-- `store.go`: `type info struct` — the JSON `conf` ledger record. -/
structure Info where
  inserts : Nat
  capacity : Nat
  size : Nat
  index : List String
  stores : List String
deriving Repr, DecidableEq

/-- `store.go`: `type workingIndex struct` (the working-set metadata memo). -/
structure WorkingIndex where
  idx : Nat
  set : Bool
  index : IndexMap
deriving Repr, DecidableEq

/-- `store.go`: `type workingStore struct` (the working-set segment memo). -/
structure WorkingStore where
  idx : Nat
  set : Bool
  data : List Nat
deriving Repr, DecidableEq

/-- The store directory's file-system state.  `ioErrs` injects per-file
read failures (the error `ioutil.ReadFile` / `ReadAt` would return),
carrying a numeric error code. -/
structure Disk where
  segs : List (String × List Nat)
  idxs : List (String × IndexMap)
  conf : Option Info
  ioErrs : List (String × Nat)
deriving Repr, DecidableEq

/-- `store.go`: `type Store struct` (lock and handle pool omitted; see the
file header). -/
structure Store (V : Type) where
  inserts : Nat
  capacity : Nat
  size : Nat
  schema : Schema V
  index : List String
  store : List String
  indexCache : Option IndexCache
  workingIndex : WorkingIndex
  workingStore : WorkingStore
  identifiers : List String

/-- Result of a store operation.  Go returns an error value but mutates the
receiver in place, so `ok` and `err` both carry the post-state; `panicked`
models a Go panic. -/
inductive Res (σ : Type) (α : Type) where
  | ok : α → σ → Res σ α
  | err : Nat → σ → Res σ α
  | panicked : Res σ α
deriving Repr, DecidableEq

/-- Error code for a `Schema.Marshal` failure. -/
def marshalErrCode : Nat := 1001

/-- Error code for a `Schema.Unmarshal` failure. -/
def unmarshalErrCode : Nat := 1002

/-- Error code for a short `ReadAt` on a segment file. -/
def readAtErrCode : Nat := 1003

/-- Error code for `PutAll` on slices of different lengths. -/
def lengthMismatchErrCode : Nat := 1004

/-- The injected read-failure code of a file, if any. -/
def Disk.ioErr (d : Disk) (name : String) : Option Nat :=
  lookupA d.ioErrs name

/-- `index.go`: `readIndex` — a missing file yields an empty map and no
error (`os.Stat` fails); a `ReadFile` failure is returned as an error; a
JSON decode failure would panic, but the model stores the maps written by
`writeIndex` structurally, so a readable file always decodes. -/
def Disk.readIndex (d : Disk) (name : String) : Except Nat IndexMap :=
  match d.ioErr name with
  | some e => .error e
  | none => .ok ((lookupA d.idxs name).getD [])

/-- `index.go`: `writeIndex` — read-modify-write of one shard's index file
(load the whole map, overwrite one entry, rewrite the file).  A `ReadAll`
failure on the open file panics in the source (`panic(err)`), modelled by
`none`. -/
def Disk.writeIndex (d : Disk) (name : String) (id : String) (m : Meta) :
    Option Disk :=
  match d.ioErr name with
  | some _ => none
  | none =>
      let i := (lookupA d.idxs name).getD []
      some { d with idxs := insertA d.idxs name (insertA i id m) }

/-- `f.WriteAt b off`: bytes `[off, off + b.length)` become `b`; a file
shorter than `off` is zero-extended. -/
def writeAtBytes (content : List Nat) (off : Nat) (b : List Nat) : List Nat :=
  (content.take off ++ List.replicate (off - content.length) 0) ++ b ++
    content.drop (off + b.length)

/-- `f.ReadAt` of the byte range `[off, off + len)` of a file. -/
def readRange (content : List Nat) (off len : Nat) : List Nat :=
  (content.drop off).take len

/-- Write to a segment file at an offset, creating the file if absent
(`O_CREATE`). -/
def Disk.writeSeg (d : Disk) (name : String) (off : Nat) (b : List Nat) :
    Disk :=
  { d with
    segs := insertA d.segs name
      (writeAtBytes ((lookupA d.segs name).getD []) off b) }

/-- Go `map[identifier]bool` membership set, as a duplicate-free list. -/
def insertId (l : List String) (id : String) : List String :=
  if id ∈ l then l else l ++ [id]

/-- `store.go`: `Flush` — rewrite the `conf` ledger from the counters and
shard lists. -/
def Store.flush {V : Type} (s : Store V) (d : Disk) : Disk :=
  { d with
    conf := some
      { inserts := s.inserts, capacity := s.capacity, size := s.size
        index := s.index, stores := s.store } }

/-- `store.go`, `Put` lines 200–206: the rotation step — when the insert
counter has reached the capacity, append one fresh index name and one
fresh store name (two separate `indexName()` calls) and reset the insert
and size counters to zero. -/
def Store.rotate {V : Type} (s : Store V) (nmI nmS : String) : Store V :=
  if s.capacity ≤ s.inserts then
    { s with inserts := 0, size := 0
             index := s.index ++ [nmI], store := s.store ++ [nmS] }
  else s

/-- `store.go`, `Put` lines 208–257: everything after encoding and
rotation, on the post-rotation store `s1`: resolve the active shard
(`s.store[len(s.index)-1]`, a panic when out of range), append the bytes
at offset `size`, commit the location into the active shard's metadata
index, update the membership set and the optional index cache (a panic
when its capacity is not positive, from `rand.Intn`), bump the counters,
and flush the ledger. -/
def putWrite {V : Type} (s1 : Store V) (d : Disk) (id : String)
    (b : List Nat) (slot : Nat) : Res (Store V × Disk) Unit :=
  if s1.index.isEmpty then .panicked
  else
    match s1.store.get? (s1.index.length - 1) with
    | none => .panicked
    | some snm =>
        match s1.index.get? (s1.index.length - 1) with
        | none => .panicked
        | some inm =>
            let d1 := d.writeSeg snm s1.size b
            let m : Meta :=
              { index := s1.index.length - 1, len := b.length
                offset := s1.size }
            match d1.writeIndex inm id m with
            | none => .panicked
            | some d2 =>
                match s1.indexCache with
                | some c =>
                    if c.capacity = 0 then .panicked
                    else
                      let s3 := { s1 with
                        identifiers := insertId s1.identifiers id
                        indexCache := some (c.put id m slot)
                        size := s1.size + b.length
                        inserts := s1.inserts + 1 }
                      .ok () (s3, s3.flush d2)
                | none =>
                    let s3 := { s1 with
                      identifiers := insertId s1.identifiers id
                      size := s1.size + b.length
                      inserts := s1.inserts + 1 }
                    .ok () (s3, s3.flush d2)

/-- `store.go`: `Put`.  `nmI` and `nmS` stand for the two fresh random
names the two `indexName()` calls would generate on rotation (unused when
no rotation happens); `slot` stands for `rand.Intn capacity` inside
`IndexCache.Put`.  `WriteAt` is modelled with its intended
write-at-offset semantics. -/
def Store.put {V : Type} (s : Store V) (d : Disk) (id : String) (v : V)
    (nmI nmS : String) (slot : Nat) : Res (Store V × Disk) Unit :=
  match s.schema.marshal v with
  | none => .err marshalErrCode (s, d)
  | some b => putWrite (s.rotate nmI nmS) d id b slot

/-- `store.go`: the loop body of `PutAll`; the oracle supplies rotation
names and a cache slot for each iteration. -/
def Store.putAllLoop {V : Type} (s : Store V) (d : Disk) (ids : List String)
    (vs : List V) (oracle : List (String × String × Nat)) :
    Res (Store V × Disk) Unit :=
  match ids, vs with
  | id :: ids', v :: vs' =>
      let o := oracle.headD ("", "", 0)
      match s.put d id v o.1 o.2.1 o.2.2 with
      | .ok _ (s', d') => Store.putAllLoop s' d' ids' vs' oracle.tail
      | .err e st => .err e st
      | .panicked => .panicked
  | _, _ => .ok () (s, d)

/-- `store.go`: `PutAll`. -/
def Store.putAll {V : Type} (s : Store V) (d : Disk) (ids : List String)
    (vs : List V) (oracle : List (String × String × Nat)) :
    Res (Store V × Disk) Unit :=
  if ids.length ≠ vs.length then .err lengthMismatchErrCode (s, d)
  else s.putAllLoop d ids vs oracle

/-- What one fan-out goroutine in `GetMeta` observes for its shard. -/
inductive ShardRes where
  | fail : Nat → ShardRes
  | hit : Meta → ShardRes
  | miss : ShardRes
deriving Repr, DecidableEq

/-- Is the shard result a hit? -/
def ShardRes.isHit : ShardRes → Bool
  | .hit _ => true
  | _ => false

/-- Is the shard result a read failure? -/
def ShardRes.isFail : ShardRes → Bool
  | .fail _ => true
  | _ => false

/-- The per-shard observations of `GetMeta`'s goroutines: each reads its
shard's index file (`readIndex`) and probes for the identifier.  The
`s.files` fast branch in the source never fires because index names never
enter the handle pool (only segment names and `conf` do). -/
def Store.shardRes {V : Type} (s : Store V) (d : Disk) (id : String) :
    List ShardRes :=
  s.index.map (fun nm =>
    match d.readIndex nm with
    | .error e => .fail e
    | .ok i =>
        match lookupA i id with
        | some m => .hit m
        | none => .miss)

/-- One interleaving of the channel traffic in `GetMeta`: `cW` is the
goroutine that wins the send on the capacity-1 meta channel (later finders
block on it and never report on the results channel); `eW` is the goroutine
that wins `once.Do` (it reports `false` inside `once.Do` and then falls
through and reports `false` again with a nil map); `arr` is the arrival
order of the reports on the results channel, tagged with the sending
goroutine's shard position; `eV` says whether the main loop's final,
unsynchronised read of `errOnce` observes the winner's assignment.  In the
source the assignment follows the winner's first send inside `once.Do`, so
it races with the read; it is ordered before the winner's second send, so
consuming that second report forces visibility (see `errOnceSeen`), and
`eV = true` is always reachable, but with the second report unconsumed the
race can resolve either way. -/
structure Sched where
  cW : Option Nat
  eW : Option Nat
  arr : List (Nat × Bool)
  eV : Bool
deriving Repr, DecidableEq

/-- Does shard `j` report a hit? -/
def hitAt (rs : List ShardRes) (j : Nat) : Bool :=
  match rs.get? j with
  | some (.hit _) => true
  | _ => false

/-- Does shard `j` report a read failure? -/
def failAt (rs : List ShardRes) (j : Nat) : Bool :=
  match rs.get? j with
  | some (.fail _) => true
  | _ => false

/-- The results-channel messages goroutine `j` manages to send before the
main loop of `GetMeta` returns. -/
def msgsFor (rs : List ShardRes) (cW eW : Option Nat) (j : Nat) :
    List Bool :=
  match rs.get? j with
  | some (.hit _) => if cW = some j then [true] else []
  | some .miss => [false]
  | some (.fail _) => if eW = some j then [false, false] else [false]
  | none => []

/-- A schedule is valid for the shard observations when the channel-send
winners exist exactly when they can, and the arrival order interleaves
precisely the messages each goroutine sends. -/
def validSched (rs : List ShardRes) (sc : Sched) : Bool :=
  (match sc.cW with
   | some j => hitAt rs j
   | none => rs.all (fun x => !x.isHit)) &&
  (match sc.eW with
   | some j => failAt rs j
   | none => rs.all (fun x => !x.isFail)) &&
  sc.arr.all (fun p => decide (p.1 < rs.length)) &&
  (List.range rs.length).all (fun j =>
    decide (((sc.arr.filter (fun p => decide (p.1 = j))).map Prod.snd) =
      msgsFor rs sc.cW sc.eW j))

/-- Is the `errOnce` assignment visible to the main loop's final read?
The once-winner assigns `errOnce` between its two `false` sends, so if the
main loop consumed the winner's second report (two `j`-tagged reports among
the `rs.length` it reads) the channel receive orders the assignment before
the read; otherwise visibility is the free race outcome `eV`. -/
def errOnceSeen (rs : List ShardRes) (sc : Sched) : Bool :=
  sc.eV ||
    (match sc.eW with
     | some j => decide (2 ≤ ((sc.arr.take rs.length).filter
         (fun p => decide (p.1 = j))).length)
     | none => false)

/-- `index.go`: the main loop of `GetMeta`: read up to `rs.length` reports
in arrival order; the first `true` report makes it return the meta sitting
in the capacity-1 channel (sent by `cW`); reading `rs.length` reports with
no `true` falls through to the unsynchronised `errOnce` read — the
winner's error if the assignment is visible (`errOnceSeen`), else
nil/nil. -/
def getMetaRun (rs : List ShardRes) (sc : Sched) : Except Nat (Option Meta) :=
  if (sc.arr.take rs.length).any Prod.snd then
    .ok (sc.cW.bind (fun j =>
      match rs.get? j with
      | some (.hit m) => some m
      | _ => none))
  else
    match sc.eW with
    | some j =>
        match rs.get? j with
        | some (.fail e) =>
            if errOnceSeen rs sc then .error e else .ok none
        | _ => .ok none
    | none => .ok none

/-- `store.go`: the tail of `Get` once a location is resolved: bounds-check
against the store list (`s.store[m.Index]` panics out of range), `ReadAt`
the byte range, reload the shard's index (`panic(err)` on failure) and
segment into the working-set memos, then decode.  Deliberate
simplification: the memo refresh is modelled as the whole segment, while
the source's `ioutil.ReadAll` on the pooled handle resumes at that
handle's current offset and returns only a suffix once the handle has
been read before; no theorem below depends on the refreshed memo's
content (conclusions about `Get` either leave the post-store existential
or concern runs whose only `ReadAll` is on a fresh handle at offset 0). -/
def Store.finishGet {V : Type} (s : Store V) (d : Disk) (m : Meta) :
    Res (Store V) (Option V) :=
  match s.store.get? m.index with
  | none => .panicked
  | some snm =>
      match d.ioErr snm with
      | some e => .err e s
      | none =>
          let seg := (lookupA d.segs snm).getD []
          if m.offset + m.len ≤ seg.length then
            let b := readRange seg m.offset m.len
            match s.index.get? m.index with
            | none => .panicked
            | some inm =>
                match d.readIndex inm with
                | .error _ => .panicked
                | .ok i =>
                    let s' := { s with
                      workingIndex := { idx := m.index, set := true, index := i }
                      workingStore := { idx := m.index, set := true, data := seg } }
                    match s.schema.unmarshal b with
                    | some v => .ok (some v) s'
                    | none => .err unmarshalErrCode s'
          else .err readAtErrCode s

/-- `store.go`: the fan-out branch of `Get` (`GetMeta`, then resolve). -/
def Store.getViaMeta {V : Type} (s : Store V) (d : Disk) (id : String)
    (sc : Sched) : Res (Store V) (Option V) :=
  match getMetaRun (s.shardRes d id) sc with
  | .error e => .err e s
  | .ok none => .ok none s
  | .ok (some m) => s.finishGet d m

/-- `store.go`: the locked part of `Get`: probe the index cache (reading
`metadata[v]` panics if the slot index is out of range), else fan out. -/
def Store.getSlow {V : Type} (s : Store V) (d : Disk) (id : String)
    (sc : Sched) : Res (Store V) (Option V) :=
  match s.indexCache with
  | some c =>
      match lookupA c.lookup id with
      | some slotIdx =>
          if h : slotIdx < c.metadata.length then
            s.finishGet d (c.metadata.get ⟨slotIdx, h⟩)
          else .panicked
      | none => s.getViaMeta d id sc
  | none => s.getViaMeta d id sc

/-- The lock-free fast path of `Get`: both working-set memos valid, same
shard, identifier present, byte range inside the memoised buffer. -/
def Store.fastHit {V : Type} (s : Store V) (id : String) : Option Meta :=
  if s.workingStore.idx = s.workingIndex.idx ∧ s.workingStore.set = true ∧
      s.workingIndex.set = true then
    match lookupA s.workingIndex.index id with
    | some m =>
        if m.offset + m.len ≤ s.workingStore.data.length then some m
        else none
    | none => none
  else none

/-- `store.go`: `Get`.  The result value is `some v` when the schema
decoded `v` into the output pointer, `none` when the output was left
unmodified (identifier not found). -/
def Store.get {V : Type} (s : Store V) (d : Disk) (id : String)
    (sc : Sched) : Res (Store V) (Option V) :=
  match s.fastHit id with
  | some m =>
      match s.schema.unmarshal
          (readRange s.workingStore.data m.offset m.len) with
      | some v => .ok (some v) s
      | none => .err unmarshalErrCode s
  | none => s.getSlow d id sc

/-- `store.go`: `loadIdentifiers` — fold every shard's index file into the
membership set, stopping at the first read error. -/
def loadIds (d : Disk) (names : List String) (acc : List String) :
    Except Nat (List String) :=
  match names with
  | [] => .ok acc
  | nm :: rest =>
      match d.readIndex nm with
      | .error e => .error e
      | .ok i => loadIds d rest (i.foldl (fun a p => insertId a p.1) acc)

/-- `store.go`: `NewStore` — fresh store with the fixed capacity `1e5` and
one fresh index name plus one fresh store name (two separate `indexName()`
calls). -/
def NewStore {V : Type} (schema : Schema V) (nmI nmS : String)
    (options : Option IndexCache) : Store V :=
  { inserts := 0, capacity := 100000, size := 0, schema := schema
    index := [nmI], store := [nmS]
    indexCache := options
    workingIndex := { idx := 0, set := false, index := [] }
    workingStore := { idx := 0, set := false, data := [] }
    identifiers := [] }

/-- `store.go`: `Open` — with no `conf` file the source returns
`NewStore dir schema` (note: dropping the options); otherwise it decodes
the ledger, applies the options, and rebuilds the membership set from
every index file. -/
def openFromInfo {V : Type} (schema : Schema V) (d : Disk) (info : Info)
    (options : Option IndexCache) : Except Nat (Store V) :=
  match d.ioErr "conf" with
  | some e => .error e
  | none =>
      match loadIds d info.index [] with
      | .error e => .error e
      | .ok ids =>
          .ok { inserts := info.inserts, capacity := info.capacity
                size := info.size, schema := schema
                index := info.index, store := info.stores
                indexCache := options
                workingIndex := { idx := 0, set := false, index := [] }
                workingStore := { idx := 0, set := false, data := [] }
                identifiers := ids }

def openStore {V : Type} (schema : Schema V) (d : Disk) (nmI nmS : String)
    (options : Option IndexCache) : Except Nat (Store V) :=
  match d.conf with
  | none => .ok (NewStore schema nmI nmS none)
  | some info => openFromInfo schema d info options

/-- `store.go`: `Close` — `Flush`, then close every open handle (closing
handles has no disk effect in the model, and `Flush` cannot fail there). -/
def Store.close {V : Type} (s : Store V) (d : Disk) : Disk :=
  s.flush d

/-- Iterate `Store.Put` over `(id, value, rotation names, slot)` tuples. -/
def Store.putSeq {V : Type} (s : Store V) (d : Disk)
    (ops : List (String × V × String × String × Nat)) :
    Res (Store V × Disk) Unit :=
  match ops with
  | [] => .ok () (s, d)
  | (id, v, nmI, nmS, slot) :: rest =>
      match s.put d id v nmI nmS slot with
      | .ok _ (s', d') => s'.putSeq d' rest
      | .err e st => .err e st
      | .panicked => .panicked

/-- All slot values in the lookup map are inside the metadata array. -/
def IndexCache.slotsOk (c : IndexCache) : Prop :=
  ∀ p ∈ c.lookup, p.2 < c.metadata.length

/-- The empty store directory. -/
def emptyDisk : Disk :=
  { segs := [], idxs := [], conf := none, ioErrs := [] }

/-- A concrete test codec used by witnesses: one byte per value. -/
def natSchema : Schema Nat :=
  { marshal := fun n => some [n]
    unmarshal := fun b =>
      match b with
      | [n] => some n
      | _ => none }

/-- The value a run produced, if it returned without error or panic. -/
def Res.val {σ α : Type} : Res σ α → Option α
  | .ok a _ => some a
  | _ => none

/-- A concrete store state with a chosen capacity, used by witnesses (the
source only fixes the capacity to `1e5` in `NewStore`; other capacities
are reachable through the on-disk ledger, which this state stands for). -/
def demoStore (cap : Nat) : Store Nat :=
  { inserts := 0, capacity := cap, size := 0, schema := natSchema
    index := ["i0"], store := ["s0"], indexCache := none
    workingIndex := { idx := 0, set := false, index := [] }
    workingStore := { idx := 0, set := false, data := [] }
    identifiers := [] }

/-- A two-shard store state: shard 0's index file is unreadable on
`fanoutDisk`, shard 1 holds "a". -/
def fanoutStore : Store Nat :=
  { inserts := 1, capacity := 10, size := 1, schema := natSchema
    index := ["i0", "i1"], store := ["s0", "s1"], indexCache := none
    workingIndex := { idx := 0, set := false, index := [] }
    workingStore := { idx := 0, set := false, data := [] }
    identifiers := ["a"] }

/-- The directory for `fanoutStore`: "i0" fails to read with error code 7,
"i1" maps "a" to one byte at offset 0 of segment "s1". -/
def fanoutDisk : Disk :=
  { segs := [("s1", [5])]
    idxs := [("i1", [("a", ⟨1, 1, 0⟩)])]
    conf := none
    ioErrs := [("i0", 7)] }

/-- A schedule where shard 1's hit report arrives before shard 0's two
failure reports. -/
def fanoutSched : Sched :=
  { cW := some 1, eW := some 0, arr := [(1, true), (0, false), (0, false)]
    eV := false }

/-- A directory whose only index file "i0" is unreadable (error code 7). -/
def failDisk : Disk :=
  { segs := [], idxs := [], conf := none, ioErrs := [("i0", 7)] }

/-- A four-step scenario on a capacity-1 store: Put "a" 1; Get "a" (loads
the working-set memo from shard 0); Put "a" 2 (rotates, writing to shard
1); Get "a" again.  The final Get is the run's result. -/
def staleRun : Res (Store Nat) (Option Nat) :=
  match (demoStore 1).put emptyDisk "a" 1 "i9" "s9" 0 with
  | .ok _ (s1, d1) =>
      match s1.get d1 "a" ⟨some 0, none, [(0, true)], false⟩ with
      | .ok _ s2 =>
          match s2.put d1 "a" 2 "i1" "s1" 0 with
          | .ok _ (s3, d3) => s3.get d3 "a" ⟨none, none, [], false⟩
          | _ => .panicked
      | _ => .panicked
  | _ => .panicked

/-- The store and disk a successful `putWrite` produces when no index
cache is configured: counters bumped, membership updated, bytes appended
to the shard's segment at the old size, location committed into the
shard's index file, ledger flushed. -/
def putWriteOk {V : Type} (s1 : Store V) (d : Disk) (id : String)
    (b : List Nat) (snm inm : String) : Store V × Disk :=
  let m : Meta := ⟨s1.index.length - 1, b.length, s1.size⟩
  let s3 : Store V := { s1 with
    identifiers := insertId s1.identifiers id
    size := s1.size + b.length
    inserts := s1.inserts + 1 }
  let d1 := d.writeSeg snm s1.size b
  let d2 : Disk := { d1 with
    idxs := insertA d1.idxs inm
      (insertA ((lookupA d1.idxs inm).getD []) id m) }
  (s3, s3.flush d2)

/-! ### Helper lemmas about the association-list and byte-range primitives -/

theorem lookupA_mem {α : Type} {l : List (String × α)} {k : String} {v : α}
    (h : lookupA l k = some v) : (k, v) ∈ l := by
  induction l with
  | nil => simp [lookupA] at h
  | cons p rest ih =>
      obtain ⟨a, b⟩ := p
      by_cases ha : a = k
      · subst ha
        simp [lookupA] at h
        simp [h]
      · simp [lookupA, ha] at h
        exact List.mem_cons_of_mem _ (ih h)

theorem mem_insertA {α : Type} {l : List (String × α)} {k : String} {v : α}
    {p : String × α} (hp : p ∈ insertA l k v) : p = (k, v) ∨ p ∈ l := by
  induction l with
  | nil => simp [insertA] at hp; simp [hp]
  | cons q rest ih =>
      obtain ⟨a, b⟩ := q
      by_cases ha : a = k
      · subst ha
        simp [insertA] at hp
        rcases hp with h | h
        · exact Or.inl h
        · exact Or.inr (List.mem_cons_of_mem _ h)
      · simp [insertA, ha] at hp
        rcases hp with h | h
        · exact Or.inr (by simp [h])
        · rcases ih h with h' | h'
          · exact Or.inl h'
          · exact Or.inr (List.mem_cons_of_mem _ h')

theorem writeAtBytes_length (c : List Nat) (off : Nat) (b : List Nat) :
    (writeAtBytes c off b).length = max (off + b.length) c.length := by
  simp [writeAtBytes]
  omega

theorem readRange_append (A b D : List Nat) :
    readRange (A ++ b ++ D) A.length b.length = b := by
  unfold readRange
  rw [List.append_assoc, List.drop_left, List.take_left]

theorem readRange_append_left (A X : List Nat) (o l : Nat)
    (h : o + l ≤ A.length) :
    readRange (A ++ X) o l = readRange A o l := by
  unfold readRange
  rw [List.drop_append_eq_append_drop, List.take_append_eq_append_take]
  have h1 : o - A.length = 0 := by omega
  have h2 : l - (A.drop o).length = 0 := by
    simp only [List.length_drop]
    omega
  rw [h1, h2]
  simp

theorem readRange_take (c : List Nat) (off o l : Nat) (h : o + l ≤ off) :
    readRange (c.take off) o l = readRange c o l := by
  unfold readRange
  rw [List.drop_take, List.take_take]
  congr 1
  omega

theorem readRange_writeAtBytes (c : List Nat) (off : Nat) (b : List Nat) :
    readRange (writeAtBytes c off b) off b.length = b := by
  have h := readRange_append (c.take off ++ List.replicate (off - c.length) 0)
    b (c.drop (off + b.length))
  have hA : (c.take off ++ List.replicate (off - c.length) 0).length = off := by
    simp only [List.length_append, List.length_take, List.length_replicate]
    omega
  rw [hA] at h
  exact h

theorem readRange_writeAtBytes_of_le (c : List Nat) (off o l : Nat)
    (b : List Nat) (h1 : o + l ≤ off) (h2 : o + l ≤ c.length) :
    readRange (writeAtBytes c off b) o l = readRange c o l := by
  have hA : (c.take off ++ List.replicate (off - c.length) 0).length = off := by
    simp only [List.length_append, List.length_take, List.length_replicate]
    omega
  have e0 : writeAtBytes c off b =
      (c.take off ++ List.replicate (off - c.length) 0) ++
        (b ++ c.drop (off + b.length)) := by
    unfold writeAtBytes
    rw [List.append_assoc]
  rw [e0]
  rw [readRange_append_left _ _ o l (by rw [hA]; exact h1)]
  rw [readRange_append_left _ _ o l (by
    simp only [List.length_take]
    omega)]
  exact readRange_take c off o l h1

/-! ### C3 — Index Cache slot collision aliases a stale identifier -/

/-- C3: two cache puts that draw the same random slot leave the first
identifier's lookup entry dangling: a `get` for the first identifier
returns the second identifier's location as an ordinary hit, with no
error or other signal. -/
theorem cacheGet_of_lookup (c : IndexCache) (id : String) (v : Nat)
    (hlk : lookupA c.lookup id = some v) (hv : v < c.metadata.length) :
    c.get id = .hit (c.metadata.get ⟨v, hv⟩) := by
  unfold IndexCache.get
  rw [hlk]
  exact dif_pos hv

theorem indexCache_collision_aliases (c : IndexCache) (id1 id2 : String)
    (m1 m2 : Meta) (slot : Nat) (hne : id1 ≠ id2)
    (hslot : slot < c.metadata.length) :
    ((c.put id1 m1 slot).put id2 m2 slot).get id1 = .hit m2 ∧
    ((c.put id1 m1 slot).put id2 m2 slot).get id2 = .hit m2 := by
  have hlk1 : lookupA ((c.put id1 m1 slot).put id2 m2 slot).lookup id1 =
      some slot := by
    simp only [IndexCache.put]
    rw [lookupA_insertA_ne _ _ _ _ (Ne.symm hne), lookupA_insertA_self]
  have hlk2 : lookupA ((c.put id1 m1 slot).put id2 m2 slot).lookup id2 =
      some slot := by
    simp only [IndexCache.put]
    rw [lookupA_insertA_self]
  have hs : slot < ((c.put id1 m1 slot).put id2 m2 slot).metadata.length := by
    simpa [IndexCache.put] using hslot
  have hget : ((c.put id1 m1 slot).put id2 m2 slot).metadata.get
      ⟨slot, hs⟩ = m2 := by
    simp [IndexCache.put, List.get_eq_getElem]
  constructor
  · rw [cacheGet_of_lookup _ _ _ hlk1 hs, hget]
  · rw [cacheGet_of_lookup _ _ _ hlk2 hs, hget]

/-- Witness for C3 at a concrete cache and inputs. -/
theorem indexCache_collision_aliases_witness :
    ((NewIndexCache 2).put "a" ⟨0, 1, 0⟩ 1 |>.put "b" ⟨0, 2, 1⟩ 1).get "a" =
      .hit ⟨0, 2, 1⟩ :=
  (indexCache_collision_aliases (NewIndexCache 2) "a" "b" ⟨0, 1, 0⟩ ⟨0, 2, 1⟩ 1
    (by decide) (by decide)).1

/-! ### C9 — Index Cache lookups never go out of bounds -/

theorem putOps_preserves_slotsOk (c : IndexCache)
    (ops : List (String × Meta × Nat)) (hc : c.slotsOk)
    (hops : ∀ op ∈ ops, op.2.2 < c.metadata.length) :
    (c.putOps ops).slotsOk ∧
    (c.putOps ops).metadata.length = c.metadata.length := by
  induction ops generalizing c with
  | nil => exact ⟨hc, rfl⟩
  | cons op rest ih =>
      obtain ⟨id, m, slot⟩ := op
      have hput : (c.put id m slot).slotsOk := by
        intro p hp
        rcases mem_insertA hp with h | h
        · subst h
          simp [IndexCache.put]
          exact hops (id, m, slot) (by simp)
        · simp only [IndexCache.put, List.length_set]
          exact hc p h
      have hlen : (c.put id m slot).metadata.length = c.metadata.length := by
        simp [IndexCache.put]
      have := ih (c.put id m slot) hput (by
        intro op hop
        rw [hlen]
        exact hops op (List.mem_cons_of_mem _ hop))
      simpa [IndexCache.putOps, hlen] using this

/-- C9: starting from a fresh cache of capacity `K ≥ 1`, any sequence of
puts whose random slots are in range (as `rand.Intn K` guarantees) keeps
every lookup slot inside the metadata array, so no cache `get` panics: it
returns a hit (possibly a stale location) or a miss. -/
theorem indexCache_get_never_panics (K : Nat) (hK : 1 ≤ K)
    (ops : List (String × Meta × Nat)) (hops : ∀ op ∈ ops, op.2.2 < K)
    (id : String) :
    ((NewIndexCache K).putOps ops).get id ≠ .panicked := by
  have hbase : (NewIndexCache K).slotsOk := by
    intro p hp
    simp [NewIndexCache] at hp
  have hlen0 : (NewIndexCache K).metadata.length = K := by
    simp [NewIndexCache]
  obtain ⟨hok, hlen⟩ := putOps_preserves_slotsOk (NewIndexCache K) ops hbase
    (by intro op hop; rw [hlen0]; exact hops op hop)
  unfold IndexCache.get
  cases hlk : lookupA ((NewIndexCache K).putOps ops).lookup id with
  | none => simp
  | some v =>
      have hv : v < ((NewIndexCache K).putOps ops).metadata.length :=
        hok (id, v) (lookupA_mem hlk)
      simp [hv]

/-- Witness for C9: capacity 1, two distinct identifiers forced into the
same slot, the displaced identifier's get still does not panic. -/
theorem indexCache_get_never_panics_witness :
    ((NewIndexCache 1).putOps
      [("a", ⟨0, 1, 0⟩, 0), ("b", ⟨0, 2, 1⟩, 0)]).get "a" ≠ .panicked :=
  indexCache_get_never_panics 1 (by decide)
    [("a", ⟨0, 1, 0⟩, 0), ("b", ⟨0, 2, 1⟩, 0)] (by decide) "a"

/-! ### Equation lemmas for `Store.put` and `Store.rotate` -/

theorem put_eq_of_marshal_none {V : Type} {s : Store V} {v : V}
    (d : Disk) (id : String) (nmI nmS : String) (slot : Nat)
    (hm : s.schema.marshal v = none) :
    s.put d id v nmI nmS slot = .err marshalErrCode (s, d) := by
  unfold Store.put
  rw [hm]

theorem put_eq_of_marshal_some {V : Type} {s : Store V} {v : V}
    {b : List Nat} (d : Disk) (id : String) (nmI nmS : String) (slot : Nat)
    (hm : s.schema.marshal v = some b) :
    s.put d id v nmI nmS slot = putWrite (s.rotate nmI nmS) d id b slot := by
  unfold Store.put
  rw [hm]

theorem rotate_indexCache {V : Type} (s : Store V) (nmI nmS : String) :
    (s.rotate nmI nmS).indexCache = s.indexCache := by
  unfold Store.rotate
  split <;> rfl

theorem rotate_eq_of_lt {V : Type} (s : Store V) (nmI nmS : String)
    (h : s.inserts < s.capacity) : s.rotate nmI nmS = s := by
  unfold Store.rotate
  rw [if_neg (by omega)]

theorem rotate_eq_of_le {V : Type} (s : Store V) (nmI nmS : String)
    (h : s.capacity ≤ s.inserts) :
    s.rotate nmI nmS =
      { s with inserts := 0, size := 0
               index := s.index ++ [nmI], store := s.store ++ [nmS] } := by
  unfold Store.rotate
  rw [if_pos h]

/-! ### C10 — a store whose index cache has capacity 0 panics on Put -/

/-- C10: with `WithIndexCache 0` the cache's `rand.Intn capacity` call is
reached by every write path that survives encoding, so `Put` can never
return successfully, and whenever the value encodes the call panics
instead of returning an error. -/
theorem put_zero_cache_panics {V : Type} (s : Store V) (d : Disk)
    (id : String) (v : V) (nmI nmS : String) (slot : Nat)
    (hc : s.indexCache = some (NewIndexCache 0)) :
    (∀ u st, s.put d id v nmI nmS slot ≠ .ok u st) ∧
    (∀ b, s.schema.marshal v = some b →
      s.put d id v nmI nmS slot = .panicked) := by
  have hc' : (s.rotate nmI nmS).indexCache = some (NewIndexCache 0) := by
    rw [rotate_indexCache]
    exact hc
  have key : ∀ b, putWrite (s.rotate nmI nmS) d id b slot = .panicked := by
    intro b
    by_cases hE : (s.rotate nmI nmS).index.isEmpty = true
    · simp only [putWrite, if_pos hE]
    · cases hget1 : (s.rotate nmI nmS).store.get?
          ((s.rotate nmI nmS).index.length - 1) with
      | none => simp only [putWrite, if_neg hE, hget1]
      | some snm =>
          cases hget2 : (s.rotate nmI nmS).index.get?
              ((s.rotate nmI nmS).index.length - 1) with
          | none => simp only [putWrite, if_neg hE, hget1, hget2]
          | some inm =>
              cases hwi : (d.writeSeg snm (s.rotate nmI nmS).size b).writeIndex
                  inm id ⟨(s.rotate nmI nmS).index.length - 1, b.length,
                    (s.rotate nmI nmS).size⟩ with
              | none =>
                  simp only [putWrite, if_neg hE, hget1, hget2]
                  rw [hwi]
              | some d2 =>
                  simp only [putWrite, if_neg hE, hget1, hget2]
                  rw [hwi, hc']
                  exact rfl
  constructor
  · intro u st h
    cases hm : s.schema.marshal v with
    | none =>
        rw [put_eq_of_marshal_none d id nmI nmS slot hm] at h
        exact Res.noConfusion h
    | some b =>
        rw [put_eq_of_marshal_some d id nmI nmS slot hm, key b] at h
        exact Res.noConfusion h
  · intro b hm
    rw [put_eq_of_marshal_some d id nmI nmS slot hm, key b]

/-- Witness for C10 at a concrete store built like
`NewStore(dir, schema, WithIndexCache(0))`. -/
theorem put_zero_cache_panics_witness :
    (NewStore natSchema "i0" "s0" (some (NewIndexCache 0))).put emptyDisk
      "a" 5 "x" "y" 0 = .panicked :=
  (put_zero_cache_panics (NewStore natSchema "i0" "s0"
    (some (NewIndexCache 0))) emptyDisk "a" 5 "x" "y" 0 rfl).2 [5] rfl

/-! ### The successful write path of `Put` without rotation -/

theorem putWrite_eq_ok {V : Type} (s1 : Store V) (d : Disk) (id : String)
    (b : List Nat) (slot : Nat) (snm inm : String)
    (hne : s1.index.isEmpty = false)
    (hsnm : s1.store.get? (s1.index.length - 1) = some snm)
    (hinm : s1.index.get? (s1.index.length - 1) = some inm)
    (hio : d.ioErr inm = none)
    (hcache : s1.indexCache = none) :
    putWrite s1 d id b slot = .ok () (putWriteOk s1 d id b snm inm) := by
  have hif : ¬ s1.index.isEmpty = true := by
    rw [hne]
    exact Bool.false_ne_true
  simp only [putWrite, if_neg hif, hsnm, hinm]
  have hwi : (d.writeSeg snm s1.size b).writeIndex inm id
      ⟨s1.index.length - 1, b.length, s1.size⟩ =
      some { (d.writeSeg snm s1.size b) with
        idxs := insertA (d.writeSeg snm s1.size b).idxs inm
          (insertA ((lookupA (d.writeSeg snm s1.size b).idxs inm).getD []) id
            ⟨s1.index.length - 1, b.length, s1.size⟩) } := by
    unfold Disk.writeIndex
    rw [show (d.writeSeg snm s1.size b).ioErr inm = none from hio]
  rw [hwi]
  simp only [putWriteOk]
  rw [hcache]

theorem putWriteOk_fst {V : Type} (s1 : Store V) (d : Disk) (id : String)
    (b : List Nat) (snm inm : String) :
    (putWriteOk s1 d id b snm inm).1 = { s1 with
      identifiers := insertId s1.identifiers id
      size := s1.size + b.length
      inserts := s1.inserts + 1 } := rfl

theorem putWriteOk_snd_ioErrs {V : Type} (s1 : Store V) (d : Disk)
    (id : String) (b : List Nat) (snm inm : String) :
    (putWriteOk s1 d id b snm inm).2.ioErrs = d.ioErrs := rfl

theorem ioErr_congr {d1 d2 : Disk} (nm : String)
    (h : d1.ioErrs = d2.ioErrs) : d1.ioErr nm = d2.ioErr nm := by
  unfold Disk.ioErr
  rw [h]

/-- A run of `Put`s that never rotates: all counters advance, the shard
lists survive untouched, and nothing fails. -/
theorem putSeq_stable {V : Type} (s : Store V) (d : Disk)
    (ops : List (String × V × String × String × Nat))
    (hm : ∀ op ∈ ops, s.schema.marshal op.2.1 ≠ none)
    (hins : s.inserts + ops.length ≤ s.capacity)
    (hne : s.index.isEmpty = false)
    (hsnm : ∃ snm, s.store.get? (s.index.length - 1) = some snm)
    (hinm : ∃ inm, s.index.get? (s.index.length - 1) = some inm ∧
      d.ioErr inm = none)
    (hcache : s.indexCache = none) :
    ∃ s' d', s.putSeq d ops = .ok () (s', d') ∧
      s'.index = s.index ∧ s'.store = s.store ∧
      s'.inserts = s.inserts + ops.length ∧
      s'.capacity = s.capacity ∧ s'.schema = s.schema ∧
      s'.indexCache = none ∧ d'.ioErrs = d.ioErrs := by
  induction ops generalizing s d with
  | nil => exact ⟨s, d, rfl, rfl, rfl, rfl, rfl, rfl, hcache, rfl⟩
  | cons op rest ih =>
      obtain ⟨id, v, nmI, nmS, slot⟩ := op
      obtain ⟨snm, hsnm'⟩ := hsnm
      obtain ⟨inm, hinm', hio⟩ := hinm
      cases hmv : s.schema.marshal v with
      | none => exact absurd hmv (hm (id, v, nmI, nmS, slot) (by simp))
      | some b =>
          have hrot : s.rotate nmI nmS = s :=
            rotate_eq_of_lt s nmI nmS (by
              simp only [List.length_cons] at hins
              omega)
          have hput : s.put d id v nmI nmS slot =
              .ok () (putWriteOk s d id b snm inm) := by
            rw [put_eq_of_marshal_some d id nmI nmS slot hmv, hrot]
            exact putWrite_eq_ok s d id b slot snm inm hne hsnm' hinm' hio
              hcache
          obtain ⟨s', d', hrun, hidx, hsto, hinserts, hcap, hsch, hic, hioe⟩ :=
            ih (putWriteOk s d id b snm inm).1 (putWriteOk s d id b snm inm).2
              (by
                intro p hp
                rw [putWriteOk_fst]
                exact hm p (List.mem_cons_of_mem _ hp))
              (by
                rw [putWriteOk_fst]
                simp only [List.length_cons] at hins
                simp only
                omega)
              (by rw [putWriteOk_fst]; exact hne)
              (by rw [putWriteOk_fst]; exact ⟨snm, hsnm'⟩)
              (⟨inm, by rw [putWriteOk_fst]; exact hinm',
                by rw [ioErr_congr inm (putWriteOk_snd_ioErrs s d id b snm inm)]
                   exact hio⟩)
              (by rw [putWriteOk_fst]; exact hcache)
          refine ⟨s', d', ?_, ?_, ?_, ?_, ?_, ?_, hic, ?_⟩
          · unfold Store.putSeq
            rw [hput]
            exact hrun
          · rw [hidx, putWriteOk_fst]
          · rw [hsto, putWriteOk_fst]
          · rw [hinserts, putWriteOk_fst]
            simp only [List.length_cons]
            omega
          · rw [hcap, putWriteOk_fst]
          · rw [hsch, putWriteOk_fst]
          · rw [hioe, putWriteOk_snd_ioErrs]

/-! ### C4 — the ledger round-trips through Close and Open -/

theorem loadIds_ok (d : Disk) (names : List String) (acc : List String)
    (h : ∀ nm ∈ names, d.ioErr nm = none) :
    ∃ ids, loadIds d names acc = .ok ids := by
  induction names generalizing acc with
  | nil => exact ⟨acc, rfl⟩
  | cons nm rest ih =>
      have hr : Disk.readIndex d nm = .ok ((lookupA d.idxs nm).getD []) := by
        unfold Disk.readIndex
        rw [h nm (by simp)]
      unfold loadIds
      rw [hr]
      exact ih _ (fun x hx => h x (List.mem_cons_of_mem _ hx))

theorem openFromInfo_eq {V : Type} (schema : Schema V) (d : Disk)
    (info : Info) (cache : Option IndexCache) (ids : List String)
    (hconf : d.ioErr "conf" = none)
    (hl : loadIds d info.index [] = .ok ids) :
    openFromInfo schema d info cache =
      .ok { inserts := info.inserts, capacity := info.capacity
            size := info.size, schema := schema
            index := info.index, store := info.stores
            indexCache := cache
            workingIndex := { idx := 0, set := false, index := [] }
            workingStore := { idx := 0, set := false, data := [] }
            identifiers := ids } := by
  unfold openFromInfo
  rw [hconf, hl]

/-- C4: `Close` (flush the ledger, close the handles) followed by `Open`
on the same directory restores the capacity, the insert counter, the size
counter, and the exact ordered shard-name lists. -/
theorem close_open_roundtrip {V : Type} (s : Store V) (d : Disk)
    (schema2 : Schema V) (nmI nmS : String) (cache : Option IndexCache)
    (hio : ∀ nm ∈ s.index, d.ioErr nm = none)
    (hconf : d.ioErr "conf" = none) :
    ∃ s' : Store V, openStore schema2 (s.close d) nmI nmS cache = .ok s' ∧
      s'.capacity = s.capacity ∧ s'.inserts = s.inserts ∧
      s'.size = s.size ∧ s'.index = s.index ∧ s'.store = s.store := by
  obtain ⟨ids, hl⟩ := loadIds_ok (s.close d) s.index []
    (fun nm h => hio nm h)
  have h0 : openStore schema2 (s.close d) nmI nmS cache =
      openFromInfo schema2 (s.close d)
        ⟨s.inserts, s.capacity, s.size, s.index, s.store⟩ cache := rfl
  rw [h0, openFromInfo_eq schema2 (s.close d)
    ⟨s.inserts, s.capacity, s.size, s.index, s.store⟩ cache ids hconf hl]
  exact ⟨_, rfl, rfl, rfl, rfl, rfl, rfl⟩

/-- Witness for C4 at a concrete store and an empty directory. -/
theorem close_open_roundtrip_witness :
    ∃ s' : Store Nat,
      openStore natSchema
        ((NewStore natSchema "i0" "s0" none).close emptyDisk) "x" "y" none =
        .ok s' ∧
      s'.capacity = (NewStore natSchema "i0" "s0" none).capacity ∧
      s'.inserts = (NewStore natSchema "i0" "s0" none).inserts ∧
      s'.size = (NewStore natSchema "i0" "s0" none).size ∧
      s'.index = (NewStore natSchema "i0" "s0" none).index ∧
      s'.store = (NewStore natSchema "i0" "s0" none).store :=
  close_open_roundtrip (NewStore natSchema "i0" "s0" none) emptyDisk
    natSchema "x" "y" none (fun nm _ => rfl) rfl

/-! ### C7 — PutAll checks lengths, runs Puts in order, stops at the
first failure, keeps earlier commits -/

/-- C7: `PutAll` returns an error and performs no `Put` when the two
slices differ in length; otherwise it iterates `Put` over the pairs in
input order, and on the first failing `Put` it returns that `Put`'s error
with exactly the state the earlier successful `Put`s committed (the batch
is not rolled back). -/
theorem putAll_spec {V : Type} (s : Store V) (d : Disk) (ids : List String)
    (vs : List V) (oracle : List (String × String × Nat)) :
    (ids.length ≠ vs.length →
      s.putAll d ids vs oracle = .err lengthMismatchErrCode (s, d)) ∧
    (ids.length = vs.length →
      s.putAll d ids vs oracle = s.putAllLoop d ids vs oracle) ∧
    (∀ id ids' v vs', ids = id :: ids' → vs = v :: vs' →
      ids'.length = vs'.length →
      (∀ e st, s.put d id v (oracle.headD ("", "", 0)).1
          (oracle.headD ("", "", 0)).2.1 (oracle.headD ("", "", 0)).2.2 =
          .err e st →
        s.putAll d ids vs oracle = .err e st) ∧
      (∀ s' d', s.put d id v (oracle.headD ("", "", 0)).1
          (oracle.headD ("", "", 0)).2.1 (oracle.headD ("", "", 0)).2.2 =
          .ok () (s', d') →
        s.putAll d ids vs oracle = s'.putAll d' ids' vs' oracle.tail)) := by
  refine ⟨?_, ?_, ?_⟩
  · intro h
    unfold Store.putAll
    rw [if_pos h]
  · intro h
    unfold Store.putAll
    rw [if_neg (by omega)]
  · intro id ids' v vs' hids hvs hlen
    subst hids
    subst hvs
    constructor
    · intro e st hput
      unfold Store.putAll
      rw [if_neg (by simp [hlen])]
      simp only [Store.putAllLoop]
      rw [hput]
    · intro s' d' hput
      unfold Store.putAll
      rw [if_neg (show ¬(id :: ids').length ≠ (v :: vs').length by
        simp [hlen])]
      rw [if_neg (show ¬ids'.length ≠ vs'.length by simp [hlen])]
      simp only [Store.putAllLoop]
      rw [hput]

/-- Witness for C7: mismatched lengths error without touching the store. -/
theorem putAll_spec_witness :
    (NewStore natSchema "i0" "s0" none).putAll emptyDisk ["a"] [] [] =
      .err lengthMismatchErrCode (NewStore natSchema "i0" "s0" none,
        emptyDisk) :=
  (putAll_spec (NewStore natSchema "i0" "s0" none) emptyDisk ["a"] []
    []).1 (by decide)

/-! ### C2 — rotation happens exactly at the capacity boundary -/

theorem writeSeg_idxs (d : Disk) (nm : String) (off : Nat) (b : List Nat) :
    (d.writeSeg nm off b).idxs = d.idxs := rfl

theorem putWriteOk_snd_idxs {V : Type} (s1 : Store V) (d : Disk)
    (id : String) (b : List Nat) (snm inm : String) :
    (putWriteOk s1 d id b snm inm).2.idxs =
      insertA d.idxs inm
        (insertA ((lookupA d.idxs inm).getD []) id
          ⟨s1.index.length - 1, b.length, s1.size⟩) := rfl

theorem put_eq_ok_of_rotation {V : Type} (s : Store V) (d : Disk)
    (id : String) (v : V) (b : List Nat) (nmI nmS : String) (slot : Nat)
    (hm : s.schema.marshal v = some b)
    (hins : s.capacity ≤ s.inserts)
    (hlen : s.store.length = s.index.length)
    (hcache : s.indexCache = none)
    (hio : d.ioErr nmI = none) :
    s.put d id v nmI nmS slot =
      .ok () (putWriteOk (s.rotate nmI nmS) d id b nmS nmI) := by
  rw [put_eq_of_marshal_some d id nmI nmS slot hm]
  have hrot := rotate_eq_of_le s nmI nmS hins
  apply putWrite_eq_ok
  · rw [hrot]
    simp
  · rw [hrot]
    show (s.store ++ [nmS]).get? ((s.index ++ [nmI]).length - 1) = some nmS
    rw [List.length_append]
    rw [show s.index.length + [nmI].length - 1 = s.store.length by
      simp [hlen]]
    exact List.get?_concat_length _ _
  · rw [hrot]
    show (s.index ++ [nmI]).get? ((s.index ++ [nmI]).length - 1) = some nmI
    rw [List.length_append]
    rw [show s.index.length + [nmI].length - 1 = s.index.length by simp]
    exact List.get?_concat_length _ _
  · exact hio
  · rw [rotate_indexCache]
    exact hcache

theorem putWrite_ok_inv {V : Type} {s1 : Store V} {d : Disk} {id : String}
    {b : List Nat} {slot : Nat} {u : Unit} {s' : Store V} {d' : Disk}
    (h : putWrite s1 d id b slot = .ok u (s', d')) :
    s'.index = s1.index ∧ s'.store = s1.store ∧
    s'.inserts = s1.inserts + 1 ∧ s'.size = s1.size + b.length ∧
    s'.capacity = s1.capacity := by
  by_cases hE : s1.index.isEmpty = true
  · simp only [putWrite, if_pos hE] at h
    exact absurd h (by simp)
  · cases hg1 : s1.store.get? (s1.index.length - 1) with
    | none =>
        simp only [putWrite, if_neg hE, hg1] at h
        exact absurd h (by simp)
    | some snm =>
        cases hg2 : s1.index.get? (s1.index.length - 1) with
        | none =>
            simp only [putWrite, if_neg hE, hg1, hg2] at h
            exact absurd h (by simp)
        | some inm =>
            cases hwi : (d.writeSeg snm s1.size b).writeIndex inm id
                ⟨s1.index.length - 1, b.length, s1.size⟩ with
            | none =>
                simp only [putWrite, if_neg hE, hg1, hg2] at h
                rw [hwi] at h
                exact absurd h (by simp)
            | some d2 =>
                simp only [putWrite, if_neg hE, hg1, hg2] at h
                rw [hwi] at h
                cases hic : s1.indexCache with
                | none =>
                    rw [hic] at h
                    simp only [Res.ok.injEq, Prod.mk.injEq] at h
                    obtain ⟨-, hs, -⟩ := h
                    rw [← hs]
                    exact ⟨rfl, rfl, rfl, rfl, rfl⟩
                | some c =>
                    rw [hic] at h
                    by_cases hcap : c.capacity = 0
                    · simp only [if_pos hcap] at h
                      exact absurd h (by simp)
                    · simp only [if_neg hcap, Res.ok.injEq,
                        Prod.mk.injEq] at h
                      obtain ⟨-, hs, -⟩ := h
                      rw [← hs]
                      exact ⟨rfl, rfl, rfl, rfl, rfl⟩

theorem put_ok_inv {V : Type} {s : Store V} {d : Disk} {id : String}
    {v : V} {nmI nmS : String} {slot : Nat} {u : Unit} {s' : Store V}
    {d' : Disk} (h : s.put d id v nmI nmS slot = .ok u (s', d')) :
    ∃ b, s.schema.marshal v = some b ∧
      s'.index = (s.rotate nmI nmS).index ∧
      s'.store = (s.rotate nmI nmS).store ∧
      s'.inserts = (s.rotate nmI nmS).inserts + 1 ∧
      s'.size = (s.rotate nmI nmS).size + b.length := by
  cases hm : s.schema.marshal v with
  | none =>
      rw [put_eq_of_marshal_none d id nmI nmS slot hm] at h
      exact absurd h (by simp)
  | some b =>
      rw [put_eq_of_marshal_some d id nmI nmS slot hm] at h
      obtain ⟨h1, h2, h3, h4, -⟩ := putWrite_ok_inv h
      exact ⟨b, rfl, h1, h2, h3, h4⟩

/-- C2: after `C` successful Puts into an empty store with capacity `C`,
the `(C+1)`-th Put appends exactly one new shard name to each list and
runs with both counters reset to zero (the committed location sits at
offset 0, the post-state has one insert and `size = len(bytes)`); and in
general a successful Put grows the shard list by one exactly when the
insert counter had reached the capacity. -/
theorem rotation_spec {V : Type} :
    (∀ (s : Store V) (d : Disk)
      (ops : List (String × V × String × String × Nat))
      (id : String) (v : V) (b : List Nat) (nmI nmS : String) (slot : Nat),
      (∀ op ∈ ops, s.schema.marshal op.2.1 ≠ none) →
      s.inserts = 0 →
      ops.length = s.capacity →
      s.index.isEmpty = false →
      (∃ snm, s.store.get? (s.index.length - 1) = some snm) →
      (∃ inm, s.index.get? (s.index.length - 1) = some inm ∧
        d.ioErr inm = none) →
      s.indexCache = none →
      s.store.length = s.index.length →
      s.schema.marshal v = some b →
      d.ioErr nmI = none →
      ∃ sC dC s' d',
        s.putSeq d ops = .ok () (sC, dC) ∧
        sC.index.length = s.index.length ∧
        sC.inserts = s.capacity ∧
        sC.put dC id v nmI nmS slot = .ok () (s', d') ∧
        s'.index.length = s.index.length + 1 ∧
        s'.store.length = s.store.length + 1 ∧
        s'.inserts = 1 ∧ s'.size = b.length ∧
        (∃ fm, lookupA d'.idxs nmI = some fm ∧
          lookupA fm id = some ⟨s.index.length, b.length, 0⟩)) ∧
    (∀ (s : Store V) (d : Disk) (id : String) (v : V) (nmI nmS : String)
      (slot : Nat) (u : Unit) (s' : Store V) (d' : Disk),
      s.put d id v nmI nmS slot = .ok u (s', d') →
      ((s'.index.length = s.index.length + 1 ↔ s.capacity ≤ s.inserts) ∧
       (s.inserts < s.capacity →
         s'.index = s.index ∧ s'.store = s.store))) := by
  constructor
  · intro s d ops id v b nmI nmS slot hm hins0 hlenops hne hsnm hinm hcache
      hslen hmv hioI
    obtain ⟨sC, dC, hrun, hidx, hsto, hinserts, hcap, hsch, hic, hioe⟩ :=
      putSeq_stable s d ops hm (by omega) hne hsnm hinm hcache
    have hcapins : sC.capacity ≤ sC.inserts := by omega
    have hmv' : sC.schema.marshal v = some b := by
      rw [hsch]
      exact hmv
    have hioI' : dC.ioErr nmI = none := by
      rw [ioErr_congr nmI hioe]
      exact hioI
    have hput := put_eq_ok_of_rotation sC dC id v b nmI nmS slot hmv'
      hcapins (by rw [hidx, hsto, hslen]) hic hioI'
    have hrotC := rotate_eq_of_le sC nmI nmS hcapins
    refine ⟨sC, dC, _, _, hrun, by rw [hidx], by omega,
      hput, ?_, ?_, ?_, ?_, ?_⟩
    · show (sC.rotate nmI nmS).index.length = s.index.length + 1
      rw [hrotC]
      show (sC.index ++ [nmI]).length = s.index.length + 1
      rw [List.length_append, hidx]
      simp
    · show (sC.rotate nmI nmS).store.length = s.store.length + 1
      rw [hrotC]
      show (sC.store ++ [nmS]).length = s.store.length + 1
      rw [List.length_append, hsto]
      simp
    · show (sC.rotate nmI nmS).inserts + 1 = 1
      rw [hrotC]
    · show (sC.rotate nmI nmS).size + b.length = b.length
      rw [hrotC]
      show 0 + b.length = b.length
      omega
    · show ∃ fm,
        lookupA (insertA dC.idxs nmI
          (insertA ((lookupA dC.idxs nmI).getD []) id
            ⟨(sC.rotate nmI nmS).index.length - 1, b.length,
              (sC.rotate nmI nmS).size⟩)) nmI = some fm ∧
        lookupA fm id = some ⟨s.index.length, b.length, 0⟩
      refine ⟨_, lookupA_insertA_self _ _ _, ?_⟩
      have hm2 : (⟨(sC.rotate nmI nmS).index.length - 1, b.length,
          (sC.rotate nmI nmS).size⟩ : Meta) =
          ⟨s.index.length, b.length, 0⟩ := by
        rw [hrotC]
        show (⟨(sC.index ++ [nmI]).length - 1, b.length, 0⟩ : Meta) = _
        rw [List.length_append, hidx]
        simp
      rw [hm2]
      exact lookupA_insertA_self _ _ _
  · intro s d id v nmI nmS slot u s' d' h
    obtain ⟨b, hmv, h1, h2, h3, -⟩ := put_ok_inv h
    by_cases hr : s.capacity ≤ s.inserts
    · have := rotate_eq_of_le s nmI nmS hr
      rw [this] at h1 h2
      constructor
      · constructor
        · intro _
          exact hr
        · intro _
          rw [h1]
          show (s.index ++ [nmI]).length = s.index.length + 1
          rw [List.length_append]
          simp
      · intro hlt
        omega
    · have := rotate_eq_of_lt s nmI nmS (by omega)
      rw [this] at h1 h2
      constructor
      · constructor
        · intro hlen
          rw [h1] at hlen
          omega
        · intro hc
          exact absurd hc hr
      · intro _
        exact ⟨h1, h2⟩

/-- Witness for C2: capacity 2, two Puts fill the shard, the third Put
rotates (this is also the spec's concrete scenario store shape). -/
theorem rotation_spec_witness :
    ∃ sC dC s' d',
      (demoStore 2).putSeq emptyDisk
        [("a", 1, "x", "y", 0), ("b", 2, "x", "y", 0)] = .ok () (sC, dC) ∧
      sC.index.length = (demoStore 2).index.length ∧
      sC.inserts = (demoStore 2).capacity ∧
      sC.put dC "c" 3 "i1" "s1" 0 = .ok () (s', d') ∧
      s'.index.length = (demoStore 2).index.length + 1 ∧
      s'.store.length = (demoStore 2).store.length + 1 ∧
      s'.inserts = 1 ∧ s'.size = [3].length ∧
      (∃ fm, lookupA d'.idxs "i1" = some fm ∧
        lookupA fm "c" =
          some ⟨(demoStore 2).index.length, [3].length, 0⟩) :=
  (rotation_spec (V := Nat)).1 (demoStore 2) emptyDisk
    [("a", 1, "x", "y", 0), ("b", 2, "x", "y", 0)] "c" 3 [3] "i1" "s1" 0
    (by decide) rfl rfl rfl ⟨"s0", rfl⟩ ⟨"i0", rfl, rfl⟩ rfl rfl rfl rfl

/-! ### The fan-out schedule model: decomposition lemmas -/

theorem validSched_parts {rs : List ShardRes} {sc : Sched}
    (hv : validSched rs sc = true) :
    (∀ j, sc.cW = some j → hitAt rs j = true) ∧
    (sc.cW = none → ∀ x ∈ rs, x.isHit = false) ∧
    (∀ j, sc.eW = some j → failAt rs j = true) ∧
    (sc.eW = none → ∀ x ∈ rs, x.isFail = false) ∧
    (∀ p ∈ sc.arr, p.1 < rs.length) ∧
    (∀ j, j < rs.length →
      (sc.arr.filter (fun p => decide (p.1 = j))).map Prod.snd =
        msgsFor rs sc.cW sc.eW j) := by
  unfold validSched at hv
  simp only [Bool.and_eq_true] at hv
  obtain ⟨⟨⟨hA, hB⟩, hC⟩, hD⟩ := hv
  refine ⟨?_, ?_, ?_, ?_, ?_, ?_⟩
  · intro j hj
    rw [hj] at hA
    exact hA
  · intro h0 x hx
    rw [h0] at hA
    have := List.all_eq_true.mp hA x hx
    simpa using this
  · intro j hj
    rw [hj] at hB
    exact hB
  · intro h0 x hx
    rw [h0] at hB
    have := List.all_eq_true.mp hB x hx
    simpa using this
  · intro p hp
    have := List.all_eq_true.mp hC p hp
    simpa using this
  · intro j hj
    have := List.all_eq_true.mp hD j (List.mem_range.mpr hj)
    simpa using this

theorem arr_mem_msgs {rs : List ShardRes} {sc : Sched}
    (hv : validSched rs sc = true) {p : Nat × Bool} (hp : p ∈ sc.arr) :
    p.2 ∈ msgsFor rs sc.cW sc.eW p.1 := by
  obtain ⟨-, -, -, -, h5, h6⟩ := validSched_parts hv
  have hfl := h6 p.1 (h5 p hp)
  have hmemf : p ∈ sc.arr.filter (fun q => decide (q.1 = p.1)) :=
    List.mem_filter.mpr ⟨hp, by simp⟩
  have hmm : p.2 ∈
      (sc.arr.filter (fun q => decide (q.1 = p.1))).map Prod.snd :=
    List.mem_map.mpr ⟨p, hmemf, rfl⟩
  rwa [hfl] at hmm

theorem no_true_of_no_hits {rs : List ShardRes} {sc : Sched}
    (hv : validSched rs sc = true)
    (hnohit : ∀ x ∈ rs, x.isHit = false) :
    (sc.arr.take rs.length).any Prod.snd = false := by
  by_contra hany
  rw [Bool.not_eq_false, List.any_eq_true] at hany
  obtain ⟨p, hp, hpt⟩ := hany
  have hp' : p ∈ sc.arr := List.mem_of_mem_take hp
  have hmem := arr_mem_msgs hv hp'
  rw [hpt] at hmem
  cases hq : rs.get? p.1 with
  | none =>
      simp only [msgsFor, hq] at hmem
      simp at hmem
  | some x =>
      cases x with
      | hit m =>
          have := hnohit _ (List.get?_mem hq)
          simp [ShardRes.isHit] at this
      | miss =>
          simp only [msgsFor, hq] at hmem
          simp at hmem
      | fail e =>
          simp only [msgsFor, hq] at hmem
          revert hmem
          split <;> simp

theorem getMetaRun_of_no_hits {rs : List ShardRes} {sc : Sched}
    (hv : validSched rs sc = true)
    (hnohit : ∀ x ∈ rs, x.isHit = false) :
    getMetaRun rs sc =
      (match sc.eW with
       | some j =>
           (match rs.get? j with
            | some (.fail e) =>
                if errOnceSeen rs sc then Except.error e else Except.ok none
            | _ => Except.ok none)
       | none => Except.ok none) := by
  unfold getMetaRun
  rw [no_true_of_no_hits hv hnohit]
  simp

/-! ### C5 — an identifier in no shard is a soft miss, not an error -/

/-- C5: when the identifier is absent from every shard's metadata index,
nothing is cached for it, and every per-shard read succeeds, `Get`
returns no error and reports "not found" (the output value is left
unmodified and the store untouched), for every fan-out schedule. -/
theorem get_absent_soft {V : Type} (s : Store V) (d : Disk) (id : String)
    (sc : Sched)
    (hfast : s.fastHit id = none)
    (hcache : ∀ c, s.indexCache = some c → lookupA c.lookup id = none)
    (hio : ∀ nm ∈ s.index, d.ioErr nm = none)
    (hmiss : ∀ nm ∈ s.index,
      lookupA ((lookupA d.idxs nm).getD []) id = none)
    (hv : validSched (s.shardRes d id) sc = true) :
    s.get d id sc = .ok none s := by
  have hrs : ∀ x ∈ s.shardRes d id, x = ShardRes.miss := by
    intro x hx
    unfold Store.shardRes at hx
    obtain ⟨nm, hnm, hxe⟩ := List.mem_map.mp hx
    rw [← hxe]
    have hr : d.readIndex nm = .ok ((lookupA d.idxs nm).getD []) := by
      unfold Disk.readIndex
      rw [hio nm hnm]
    rw [hr]
    simp only [hmiss nm hnm]
  have hnohit : ∀ x ∈ s.shardRes d id, x.isHit = false := by
    intro x hx
    rw [hrs x hx]
    rfl
  obtain ⟨-, -, hE, -, -, -⟩ := validSched_parts hv
  have heW : sc.eW = none := by
    cases heq : sc.eW with
    | none => rfl
    | some j =>
        have hfa := hE j heq
        unfold failAt at hfa
        cases hq : (s.shardRes d id).get? j with
        | none =>
            rw [hq] at hfa
            simp at hfa
        | some x =>
            rw [hq] at hfa
            rw [hrs x (List.get?_mem hq)] at hfa
            simp at hfa
  have hgm : getMetaRun (s.shardRes d id) sc = .ok none := by
    rw [getMetaRun_of_no_hits hv hnohit, heW]
  have hvia : s.getViaMeta d id sc = .ok none s := by
    unfold Store.getViaMeta
    rw [hgm]
  have hroute : s.get d id sc = s.getSlow d id sc := by
    unfold Store.get
    simp only [hfast]
  rw [hroute]
  unfold Store.getSlow
  cases hic : s.indexCache with
  | none => exact hvia
  | some c => simp only [hcache c hic, hvia]

/-- Witness for C5: one shard, empty directory, one-message schedule. -/
theorem get_absent_soft_witness :
    (demoStore 2).get emptyDisk "z" ⟨none, none, [(0, false)], false⟩ =
      .ok none (demoStore 2) :=
  get_absent_soft (demoStore 2) emptyDisk "z"
    ⟨none, none, [(0, false)], false⟩
    rfl (fun c hc => Option.noConfusion hc) (fun nm _ => rfl)
    (fun nm _ => rfl) (by decide)

/-! ### C8 — fan-out errors are surfaced only when no shard reports a hit -/

/-- C8 counterexample: with a valid schedule in which shard 1's hit for
"a" arrives first, `Get` returns the value with no error even though the
shard 0 task failed with error 7 — the task's error is not surfaced. -/
theorem get_fanout_error_swallowed :
    validSched (fanoutStore.shardRes fanoutDisk "a") fanoutSched = true ∧
    failAt (fanoutStore.shardRes fanoutDisk "a") 0 = true ∧
    (fanoutStore.get fanoutDisk "a" fanoutSched).val = some (some 5) ∧
    (∀ e st, fanoutStore.get fanoutDisk "a" fanoutSched ≠ .err e st) := by
  refine ⟨by decide, by decide, rfl, ?_⟩
  intro e st h
  have h2 : (fanoutStore.get fanoutDisk "a" fanoutSched).val =
      some (some 5) := rfl
  rw [h] at h2
  simp [Res.val] at h2

/-- C8 amended: an I/O error from a fan-out task reaches the caller of
`Get` only when no task reports a hit among the results the main loop
consumes and the main loop's unsynchronised read of `errOnce` observes the
once-winner's assignment; under those conditions the once-recorded failing
task's error is returned (when the winner's second report is among the
consumed results, visibility — and hence the error — is guaranteed). -/
theorem get_fanout_error_when_no_hit {V : Type} (s : Store V) (d : Disk)
    (id : String) (sc : Sched)
    (hfast : s.fastHit id = none)
    (hcache : ∀ c, s.indexCache = some c → lookupA c.lookup id = none)
    (hnohit : ∀ x ∈ s.shardRes d id, x.isHit = false)
    (hfail : ∃ x ∈ s.shardRes d id, x.isFail = true)
    (hsee : errOnceSeen (s.shardRes d id) sc = true)
    (hv : validSched (s.shardRes d id) sc = true) :
    ∃ j e, (s.shardRes d id).get? j = some (.fail e) ∧
      s.get d id sc = .err e s := by
  obtain ⟨-, -, hEs, hEn, -, -⟩ := validSched_parts hv
  cases heW : sc.eW with
  | none =>
      obtain ⟨x, hx, hxf⟩ := hfail
      rw [hEn heW x hx] at hxf
      exact absurd hxf (by simp)
  | some j =>
      have hfa := hEs j heW
      unfold failAt at hfa
      cases hq : (s.shardRes d id).get? j with
      | none =>
          rw [hq] at hfa
          simp at hfa
      | some x =>
          cases x with
          | hit m =>
              rw [hq] at hfa
              simp at hfa
          | miss =>
              rw [hq] at hfa
              simp at hfa
          | fail e =>
              refine ⟨j, e, hq, ?_⟩
              have hgm : getMetaRun (s.shardRes d id) sc = .error e := by
                rw [getMetaRun_of_no_hits hv hnohit, heW]
                simp only [hq, hsee, if_true]
              have hroute : s.get d id sc = s.getSlow d id sc := by
                unfold Store.get
                simp only [hfast]
              rw [hroute]
              unfold Store.getSlow
              cases hic : s.indexCache with
              | none =>
                  unfold Store.getViaMeta
                  simp only [hgm]
              | some c =>
                  simp only [hcache c hic]
                  unfold Store.getViaMeta
                  simp only [hgm]

/-- Witness for the amended C8: a single unreadable shard, identifier
found nowhere, the `errOnce` write wins the race, the error is
surfaced. -/
theorem get_fanout_error_when_no_hit_witness :
    ∃ j e,
      ((demoStore 2).shardRes failDisk "a").get? j = some (.fail e) ∧
      (demoStore 2).get failDisk "a"
        ⟨none, some 0, [(0, false), (0, false)], true⟩ =
        .err e (demoStore 2) :=
  get_fanout_error_when_no_hit (demoStore 2) failDisk "a"
    ⟨none, some 0, [(0, false), (0, false)], true⟩ rfl
    (fun c hc => Option.noConfusion hc) (by decide) (by decide) (by decide)
    (by decide)

/-! ### The fan-out returns the location when exactly one shard holds it -/

theorem length_filter_sum (l : List (Nat × Bool)) (n : Nat)
    (h : ∀ p ∈ l, p.1 < n) :
    l.length = ∑ j ∈ Finset.range n,
      (l.filter (fun p => decide (p.1 = j))).length := by
  induction l with
  | nil => simp
  | cons p l ih =>
      have hp : p.1 < n := h p (by simp)
      have ihl := ih (fun q hq => h q (List.mem_cons_of_mem _ hq))
      have heach : ∀ j,
          (((p :: l).filter (fun q => decide (q.1 = j))).length) =
            (l.filter (fun q => decide (q.1 = j))).length +
              if p.1 = j then 1 else 0 := by
        intro j
        by_cases hj : p.1 = j
        · simp [List.filter_cons, hj]
        · simp [List.filter_cons, hj]
      rw [Finset.sum_congr rfl (fun j _ => heach j)]
      rw [Finset.sum_add_distrib]
      rw [Finset.sum_ite_eq (Finset.range n) p.1 (fun _ => 1)]
      rw [if_pos (Finset.mem_range.mpr hp)]
      rw [← ihl]
      simp

theorem getMetaRun_hit {rs : List ShardRes} {sc : Sched} {m : Meta}
    (hv : validSched rs sc = true)
    (hall : ∀ x ∈ rs, x = .hit m ∨ x = .miss)
    (hex : ∃ x ∈ rs, x.isHit = true) :
    getMetaRun rs sc = .ok (some m) := by
  obtain ⟨hCs, hCn, -, -, h5, h6⟩ := validSched_parts hv
  cases hcW : sc.cW with
  | none =>
      obtain ⟨x, hx, hxh⟩ := hex
      rw [hCn hcW x hx] at hxh
      exact absurd hxh (by simp)
  | some j0 =>
      have hj0 := hCs j0 hcW
      unfold hitAt at hj0
      cases hq : rs.get? j0 with
      | none =>
          rw [hq] at hj0
          simp at hj0
      | some x =>
          have hxm : x = .hit m := by
            rcases hall x (List.get?_mem hq) with h | h
            · exact h
            · rw [hq, h] at hj0
              simp at hj0
          rw [hxm] at hq
          have harrlen : sc.arr.length ≤ rs.length := by
            rw [length_filter_sum sc.arr rs.length h5]
            calc ∑ j ∈ Finset.range rs.length,
                  (sc.arr.filter (fun p => decide (p.1 = j))).length
                ≤ ∑ _j ∈ Finset.range rs.length, 1 := by
                  apply Finset.sum_le_sum
                  intro j hj
                  have hmj := h6 j (Finset.mem_range.mp hj)
                  have hlenj :
                      (sc.arr.filter (fun p => decide (p.1 = j))).length =
                        (msgsFor rs sc.cW sc.eW j).length := by
                    rw [← hmj, List.length_map]
                  rw [hlenj]
                  cases hqj : rs.get? j with
                  | none =>
                      simp only [msgsFor, hqj]
                      simp
                  | some y =>
                      rcases hall y (List.get?_mem hqj) with hy | hy
                      · rw [hy] at hqj
                        simp only [msgsFor, hqj]
                        split <;> simp
                      · rw [hy] at hqj
                        simp only [msgsFor, hqj]
                        simp
              _ = rs.length := by simp
          have htake : sc.arr.take rs.length = sc.arr :=
            List.take_of_length_le harrlen
          have hj0lt : j0 < rs.length := by
            by_contra hcon
            rw [List.get?_eq_none.mpr (by omega)] at hq
            exact Option.noConfusion hq
          have hmsg0 : (sc.arr.filter
              (fun p => decide (p.1 = j0))).map Prod.snd = [true] := by
            rw [h6 j0 hj0lt]
            simp only [msgsFor, hq]
            rw [if_pos hcW]
          obtain ⟨q, hqf, hqt⟩ : ∃ q ∈ sc.arr.filter
              (fun p => decide (p.1 = j0)), q.2 = true := by
            cases hfj : sc.arr.filter (fun p => decide (p.1 = j0)) with
            | nil =>
                rw [hfj] at hmsg0
                simp at hmsg0
            | cons q1 t =>
                refine ⟨q1, by simp, ?_⟩
                rw [hfj] at hmsg0
                simp at hmsg0
                exact hmsg0.1
          have hqarr : q ∈ sc.arr := (List.mem_filter.mp hqf).1
          have hany : (sc.arr.take rs.length).any Prod.snd = true := by
            rw [htake]
            exact List.any_eq_true.mpr ⟨q, hqarr, by rw [hqt]⟩
          have hbind : (some j0).bind (fun j =>
              match rs.get? j with
              | some (ShardRes.hit mm) => some mm
              | _ => none) = some m := by
            show (match rs.get? j0 with
              | some (ShardRes.hit mm) => some mm
              | _ => none) = some m
            simp only [hq]
          unfold getMetaRun
          rw [if_pos hany, hcW, hbind]

/-! ### Resolving a location: the tail of `Get` succeeds on good inputs -/

theorem finishGet_ok {V : Type} (s' : Store V) (d' : Disk) (m : Meta)
    (snm inm : String) (b : List Nat) (v : V)
    (hsnm : s'.store.get? m.index = some snm)
    (hioS : d'.ioErr snm = none)
    (hseg : m.offset + m.len ≤ ((lookupA d'.segs snm).getD []).length)
    (hread : readRange ((lookupA d'.segs snm).getD []) m.offset m.len = b)
    (hinm : s'.index.get? m.index = some inm)
    (hioI : d'.ioErr inm = none)
    (hum : s'.schema.unmarshal b = some v) :
    s'.finishGet d' m = .ok (some v)
      { s' with
        workingIndex :=
          { idx := m.index, set := true
            index := (lookupA d'.idxs inm).getD [] }
        workingStore :=
          { idx := m.index, set := true
            data := (lookupA d'.segs snm).getD [] } } := by
  have hri : d'.readIndex inm = .ok ((lookupA d'.idxs inm).getD []) := by
    unfold Disk.readIndex
    rw [hioI]
  unfold Store.finishGet
  simp only [hsnm, hioS, hinm, hri, hread, hum]
  rw [if_pos hseg]

theorem fastHit_congr {V : Type} (a b : Store V) (id : String)
    (h1 : a.workingIndex = b.workingIndex)
    (h2 : a.workingStore = b.workingStore) :
    a.fastHit id = b.fastHit id := by
  unfold Store.fastHit
  rw [h1, h2]

theorem rotate_workingIndex {V : Type} (s : Store V) (nmI nmS : String) :
    (s.rotate nmI nmS).workingIndex = s.workingIndex := by
  unfold Store.rotate
  split <;> rfl

theorem rotate_workingStore {V : Type} (s : Store V) (nmI nmS : String) :
    (s.rotate nmI nmS).workingStore = s.workingStore := by
  unfold Store.rotate
  split <;> rfl

theorem rotate_schema {V : Type} (s : Store V) (nmI nmS : String) :
    (s.rotate nmI nmS).schema = s.schema := by
  unfold Store.rotate
  split <;> rfl

/-- Full inversion of a successful `putWrite`: names of the target shard,
readability of its index file, the exact disk produced, and the store up
to the optional cache update. -/
theorem putWrite_ok_strong {V : Type} {s1 : Store V} {d : Disk}
    {id : String} {b : List Nat} {slot : Nat} {u : Unit} {s' : Store V}
    {d' : Disk} (h : putWrite s1 d id b slot = .ok u (s', d')) :
    ∃ snm inm,
      s1.index.isEmpty = false ∧
      s1.store.get? (s1.index.length - 1) = some snm ∧
      s1.index.get? (s1.index.length - 1) = some inm ∧
      d.ioErr inm = none ∧
      d' = (putWriteOk s1 d id b snm inm).2 ∧
      s'.workingIndex = s1.workingIndex ∧
      s'.workingStore = s1.workingStore ∧
      s'.schema = s1.schema ∧
      s'.index = s1.index ∧ s'.store = s1.store ∧
      ((s1.indexCache = none ∧ s' = (putWriteOk s1 d id b snm inm).1) ∨
       (∃ c, s1.indexCache = some c ∧ c.capacity ≠ 0 ∧
         s' = { (putWriteOk s1 d id b snm inm).1 with
           indexCache := some (c.put id
             ⟨s1.index.length - 1, b.length, s1.size⟩ slot) })) := by
  by_cases hE : s1.index.isEmpty = true
  · simp only [putWrite, if_pos hE] at h
    exact absurd h (by simp)
  · cases hg1 : s1.store.get? (s1.index.length - 1) with
    | none =>
        simp only [putWrite, if_neg hE, hg1] at h
        exact absurd h (by simp)
    | some snm =>
        cases hg2 : s1.index.get? (s1.index.length - 1) with
        | none =>
            simp only [putWrite, if_neg hE, hg1, hg2] at h
            exact absurd h (by simp)
        | some inm =>
            cases hio : d.ioErr inm with
            | some e =>
                have hwi : (d.writeSeg snm s1.size b).writeIndex inm id
                    ⟨s1.index.length - 1, b.length, s1.size⟩ = none := by
                  unfold Disk.writeIndex
                  rw [show (d.writeSeg snm s1.size b).ioErr inm = some e
                    from hio]
                simp only [putWrite, if_neg hE, hg1, hg2, hwi] at h
                exact absurd h (by simp)
            | none =>
                have hwi : (d.writeSeg snm s1.size b).writeIndex inm id
                    ⟨s1.index.length - 1, b.length, s1.size⟩ =
                    some { (d.writeSeg snm s1.size b) with
                      idxs := insertA (d.writeSeg snm s1.size b).idxs inm
                        (insertA ((lookupA
                          (d.writeSeg snm s1.size b).idxs inm).getD []) id
                          ⟨s1.index.length - 1, b.length, s1.size⟩) } := by
                  unfold Disk.writeIndex
                  rw [show (d.writeSeg snm s1.size b).ioErr inm = none
                    from hio]
                simp only [putWrite, if_neg hE, hg1, hg2, hwi] at h
                have hEf : s1.index.isEmpty = false := by
                  rwa [Bool.not_eq_true] at hE
                cases hic : s1.indexCache with
                | none =>
                    rw [hic] at h
                    simp only [Res.ok.injEq, Prod.mk.injEq] at h
                    obtain ⟨-, hs, hd⟩ := h
                    exact ⟨snm, inm, hEf, rfl, rfl, hio, by exact hd.symm,
                      by rw [← hs], by rw [← hs], by rw [← hs],
                      by rw [← hs], by rw [← hs],
                      Or.inl ⟨rfl, by rw [putWriteOk_fst, ← hs, hic]⟩⟩
                | some c =>
                    rw [hic] at h
                    by_cases hcap : c.capacity = 0
                    · simp only [if_pos hcap] at h
                      exact absurd h (by simp)
                    · simp only [if_neg hcap, Res.ok.injEq,
                        Prod.mk.injEq] at h
                      obtain ⟨-, hs, hd⟩ := h
                      exact ⟨snm, inm, hEf, rfl, rfl, hio,
                        by exact hd.symm,
                        by rw [← hs], by rw [← hs], by rw [← hs],
                        by rw [← hs], by rw [← hs],
                        Or.inr ⟨c, rfl, hcap, by exact hs.symm⟩⟩

/-! ### C1 — Put/Get round-trip (amended) -/

/-- C1 amended: after a successful `Put(id, v)`, a `Get(id)` on the
resulting store returns `v` under the conditions the counterexample
forces: the value round-trips through the schema, the unlocked
working-set memo holds no usable entry for `id` (a stale memo entry wins
and returns old bytes), `id` is recorded in no shard file other than the
one this Put writes — the post-state's active shard, whose entry
`writeIndex` overwrites, so re-putting an identifier into the same shard
is covered — (a duplicate in an older shard can win the fan-out race),
every file is readable, and a configured index cache is well-formed with
an in-range random slot. -/
theorem put_get_roundtrip {V : Type} (s : Store V) (d : Disk) (id : String)
    (v : V) (b : List Nat) (nmI nmS : String) (slot : Nat) (s' : Store V)
    (d' : Disk) (sc : Sched)
    (hput : s.put d id v nmI nmS slot = .ok () (s', d'))
    (hb : s.schema.marshal v = some b)
    (hrt : s.schema.unmarshal b = some v)
    (hfast : s.fastHit id = none)
    (hclen : ∀ c, s.indexCache = some c →
      c.metadata.length = c.capacity ∧ slot < c.capacity)
    (honly : ∀ nm ∈ s.index,
      s'.index.get? (s'.index.length - 1) ≠ some nm →
      lookupA ((lookupA d.idxs nm).getD []) id = none)
    (hio : ∀ nm, d.ioErr nm = none)
    (hv : validSched (s'.shardRes d' id) sc = true) :
    ∃ st, s'.get d' id sc = .ok (some v) st := by
  rw [put_eq_of_marshal_some d id nmI nmS slot hb] at hput
  obtain ⟨snm, inm, hne, hsnm, hinm, hioinm, hd', hwI, hwS, hsch, hidx,
    hsto, hcase⟩ := putWrite_ok_strong hput
  set m0 : Meta := ⟨(s.rotate nmI nmS).index.length - 1, b.length,
    (s.rotate nmI nmS).size⟩ with hm0
  have hioe : ∀ nm, d'.ioErr nm = d.ioErr nm := by
    intro nm
    rw [hd']
    rfl
  have hidxs : d'.idxs = insertA d.idxs inm
      (insertA ((lookupA d.idxs inm).getD []) id m0) := by
    rw [hd']
    rfl
  have hsegs : d'.segs = insertA d.segs snm
      (writeAtBytes ((lookupA d.segs snm).getD [])
        (s.rotate nmI nmS).size b) := by
    rw [hd']
    rfl
  have hfile : ∀ nm, lookupA d'.idxs nm =
      if inm = nm then
        some (insertA ((lookupA d.idxs inm).getD []) id m0)
      else lookupA d.idxs nm := by
    intro nm
    rw [hidxs]
    by_cases hnm : inm = nm
    · rw [if_pos hnm, ← hnm, lookupA_insertA_self]
    · rw [if_neg hnm, lookupA_insertA_ne _ _ _ _ hnm]
  have hmem_old : ∀ nm ∈ (s.rotate nmI nmS).index, inm ≠ nm →
      nm ∈ s.index := by
    intro nm hnm hne2
    by_cases hr : s.capacity ≤ s.inserts
    · have hrot := rotate_eq_of_le s nmI nmS hr
      rw [hrot] at hnm
      have hnm' : nm ∈ s.index ++ [nmI] := hnm
      rcases List.mem_append.mp hnm' with h1 | h1
      · exact h1
      · have hinmI : inm = nmI := by
          rw [hrot] at hinm
          have hinm2 : (s.index ++ [nmI]).get?
              ((s.index ++ [nmI]).length - 1) = some inm := hinm
          rw [List.length_append] at hinm2
          rw [show s.index.length + [nmI].length - 1 = s.index.length by
            simp] at hinm2
          rw [List.get?_concat_length] at hinm2
          exact (Option.some.inj hinm2).symm
        simp at h1
        rw [h1, ← hinmI] at hne2
        exact absurd rfl hne2
    · have hrot := rotate_eq_of_lt s nmI nmS (by omega)
      rw [hrot] at hnm
      exact hnm
  have hreadok : ∀ nm, d'.readIndex nm =
      .ok ((lookupA d'.idxs nm).getD []) := by
    intro nm
    unfold Disk.readIndex
    rw [hioe nm, hio nm]
  have hrs : ∀ x ∈ s'.shardRes d' id,
      x = ShardRes.hit m0 ∨ x = ShardRes.miss := by
    intro x hx
    unfold Store.shardRes at hx
    obtain ⟨nm, hnm, hxe⟩ := List.mem_map.mp hx
    have hnm1 : nm ∈ (s.rotate nmI nmS).index := by
      rw [← hidx]
      exact hnm
    by_cases hnmi : inm = nm
    · have hlk : lookupA ((lookupA d'.idxs nm).getD []) id = some m0 := by
        rw [hfile nm, if_pos hnmi, Option.getD_some]
        exact lookupA_insertA_self _ _ _
      rw [← hxe]
      simp only [hreadok nm, hlk]
      left
      trivial
    · have hlk : lookupA ((lookupA d'.idxs nm).getD []) id = none := by
        rw [hfile nm, if_neg hnmi]
        refine honly nm (hmem_old nm hnm1 hnmi) ?_
        intro hcon
        rw [hidx, hinm] at hcon
        exact hnmi (Option.some.inj hcon)
      rw [← hxe]
      simp only [hreadok nm, hlk]
      right
      trivial
  have hinm_mem : inm ∈ (s.rotate nmI nmS).index := List.get?_mem hinm
  have hex : ∃ x ∈ s'.shardRes d' id, x.isHit = true := by
    refine ⟨ShardRes.hit m0, ?_, rfl⟩
    unfold Store.shardRes
    apply List.mem_map.mpr
    refine ⟨inm, by rw [hidx]; exact hinm_mem, ?_⟩
    have hlk : lookupA ((lookupA d'.idxs inm).getD []) id = some m0 := by
      rw [hfile inm, if_pos rfl, Option.getD_some]
      exact lookupA_insertA_self _ _ _
    simp only [hreadok inm, hlk]
  have hgm : getMetaRun (s'.shardRes d' id) sc = .ok (some m0) :=
    getMetaRun_hit hv hrs hex
  have hseg' : (lookupA d'.segs snm).getD [] =
      writeAtBytes ((lookupA d.segs snm).getD [])
        (s.rotate nmI nmS).size b := by
    rw [hsegs, lookupA_insertA_self, Option.getD_some]
  have hfin := finishGet_ok s' d' m0 snm inm b v
    (by rw [hsto]; exact hsnm)
    (by rw [hioe snm]; exact hio snm)
    (by rw [hseg']
        show (s.rotate nmI nmS).size + b.length ≤ _
        rw [writeAtBytes_length]
        exact le_max_left _ _)
    (by rw [hseg']
        show readRange (writeAtBytes ((lookupA d.segs snm).getD [])
          (s.rotate nmI nmS).size b) (s.rotate nmI nmS).size b.length = b
        exact readRange_writeAtBytes _ _ _)
    (by rw [hidx]; exact hinm)
    (by rw [hioe inm]; exact hio inm)
    (by rw [hsch, rotate_schema]; exact hrt)
  have hfast' : s'.fastHit id = none := by
    rw [fastHit_congr s' s id (by rw [hwI, rotate_workingIndex])
      (by rw [hwS, rotate_workingStore])]
    exact hfast
  refine ⟨{ s' with
    workingIndex :=
      { idx := m0.index, set := true,
        index := (lookupA d'.idxs inm).getD [] }
    workingStore :=
      { idx := m0.index, set := true,
        data := (lookupA d'.segs snm).getD [] } }, ?_⟩
  have hroute1 : s'.get d' id sc = s'.getSlow d' id sc := by
    unfold Store.get
    simp only [hfast']
  rw [hroute1]
  rcases hcase with ⟨hic0, hseq⟩ | ⟨c, hic0, hcap, hseq⟩
  · have hic' : s'.indexCache = none := by
      rw [hseq]
      exact hic0
    unfold Store.getSlow
    simp only [hic']
    unfold Store.getViaMeta
    simp only [hgm]
    rw [hfin, hic']
  · have hic' : s'.indexCache = some (c.put id m0 slot) := by
      rw [hseq]
    obtain ⟨hlen, hslot⟩ := hclen c
      (by rw [← rotate_indexCache s nmI nmS]; exact hic0)
    have hlkc : lookupA (c.put id m0 slot).lookup id = some slot := by
      unfold IndexCache.put
      exact lookupA_insertA_self _ _ _
    have hslot' : slot < (c.put id m0 slot).metadata.length := by
      unfold IndexCache.put
      simp only [List.length_set]
      omega
    have hgetm : (c.put id m0 slot).metadata.get ⟨slot, hslot'⟩ = m0 := by
      unfold IndexCache.put
      simp [List.get_eq_getElem]
    unfold Store.getSlow
    simp only [hic', hlkc]
    rw [dif_pos hslot', hgetm]
    rw [hfin, hic']

/-- C1 counterexample: in the concrete four-step run the final Get comes
after a successful Put("a", 2) yet returns the old value 1 — the unlocked
working-set fast path serves shard 0's stale bytes after the rotation
moved "a" to shard 1. -/
theorem roundtrip_cex :
    staleRun.val = some (some 1) ∧ staleRun.val ≠ some (some 2) :=
  ⟨rfl, by decide⟩

/-- Witness for the amended C1 at a concrete store: Put "a" 1 on an empty
capacity-2 store, then Get "a" returns 1. -/
theorem put_get_roundtrip_witness :
    ∃ st, ({ demoStore 2 with
        identifiers := ["a"], size := 1, inserts := 1 } : Store Nat).get
      ⟨[("s0", [1])], [("i0", [("a", ⟨0, 1, 0⟩)])],
        some ⟨1, 2, 1, ["i0"], ["s0"]⟩, []⟩ "a"
      ⟨some 0, none, [(0, true)], false⟩ = .ok (some 1) st :=
  put_get_roundtrip (demoStore 2) emptyDisk "a" 1 [1] "x" "y" 0
    { demoStore 2 with identifiers := ["a"], size := 1, inserts := 1 }
    ⟨[("s0", [1])], [("i0", [("a", ⟨0, 1, 0⟩)])],
      some ⟨1, 2, 1, ["i0"], ["s0"]⟩, []⟩
    ⟨some 0, none, [(0, true)], false⟩ rfl rfl rfl rfl
    (fun c hc => Option.noConfusion hc) (fun nm _ _ => rfl) (fun nm => rfl)
    (by decide)

/-! ### C6 — same-shard Puts commit disjoint ranges that read back -/

theorem sum_take_mono (bs : List (List Nat)) (k l : Nat) (h : k ≤ l) :
    ((bs.take k).map List.length).sum ≤ ((bs.take l).map List.length).sum := by
  have hsplit : bs.take l = bs.take k ++ (bs.drop k).take (l - k) := by
    rw [show l = k + (l - k) by omega, List.take_add]
    simp
  rw [hsplit, List.map_append, List.sum_append]
  omega

theorem sum_take_succ (bs : List (List Nat)) (k : Nat) (hk : k < bs.length) :
    ((bs.take (k + 1)).map List.length).sum =
      ((bs.take k).map List.length).sum + (bs.getD k []).length := by
  obtain ⟨v, hv⟩ : ∃ v, bs[k]? = some v := by
    cases hq : bs[k]? with
    | none =>
        rw [List.getElem?_eq_none_iff] at hq
        omega
    | some v => exact ⟨v, rfl⟩
  have hgd : bs.getD k [] = v := by
    simp [List.getD, hv]
  rw [List.take_succ, hv]
  simp [hv, hgd]

/-- The invariant of a rotation-free run of Puts into one shard: the run
succeeds, the size counter advances by the total payload length, the
shard's index file maps the k-th identifier to the range starting at the
running offset while other identifiers are untouched, old segment bytes
below the starting size survive, and each committed range reads back its
own payload. -/
theorem putSeq_sameShard {V : Type} (s : Store V) (d : Disk)
    (ops : List (String × V × String × String × Nat))
    (bs : List (List Nat)) (snm inm : String)
    (hbs : ops.map (fun op => s.schema.marshal op.2.1) = bs.map some)
    (hins : s.inserts + ops.length ≤ s.capacity)
    (hne : s.index.isEmpty = false)
    (hsnm : s.store.get? (s.index.length - 1) = some snm)
    (hinm : s.index.get? (s.index.length - 1) = some inm)
    (hio : d.ioErr inm = none)
    (hcache : s.indexCache = none)
    (hnd : (ops.map (fun op => op.1)).Nodup) :
    ∃ s' d', s.putSeq d ops = .ok () (s', d') ∧
      s'.size = s.size + (bs.map List.length).sum ∧
      ((∀ id', id' ∉ ops.map (fun op => op.1) →
          lookupA ((lookupA d'.idxs inm).getD []) id' =
            lookupA ((lookupA d.idxs inm).getD []) id') ∧
        (∀ k, (hk : k < ops.length) →
          lookupA ((lookupA d'.idxs inm).getD []) (ops.get ⟨k, hk⟩).1 =
            some ⟨s.index.length - 1, (bs.getD k []).length,
              s.size + ((bs.take k).map List.length).sum⟩)) ∧
      (∀ o l, o + l ≤ s.size →
        o + l ≤ ((lookupA d.segs snm).getD []).length →
        readRange ((lookupA d'.segs snm).getD []) o l =
          readRange ((lookupA d.segs snm).getD []) o l) ∧
      (∀ k, k < ops.length →
        readRange ((lookupA d'.segs snm).getD [])
          (s.size + ((bs.take k).map List.length).sum)
          (bs.getD k []).length = bs.getD k []) := by
  induction ops generalizing s d bs with
  | nil =>
      cases bs with
      | cons b bs' => simp at hbs
      | nil =>
          exact ⟨s, d, rfl, by simp, ⟨fun id' _ => rfl,
            fun k hk => absurd hk (by simp)⟩,
            fun o l h1 h2 => rfl, fun k hk => absurd hk (by simp)⟩
  | cons op rest ih =>
      cases bs with
      | nil => simp at hbs
      | cons b bs' =>
          simp only [List.map_cons, List.cons.injEq] at hbs
          obtain ⟨hmb, hbs'⟩ := hbs
          obtain ⟨id0, v0, nmI0, nmS0, slot0⟩ := op
          have hrot : (Store.rotate s nmI0 nmS0) = s :=
            rotate_eq_of_lt s nmI0 nmS0 (by
              simp only [List.length_cons] at hins
              omega)
          have hput : s.put d id0 v0 nmI0 nmS0 slot0 =
              .ok () (putWriteOk s d id0 b snm inm) := by
            rw [put_eq_of_marshal_some d id0 nmI0 nmS0 slot0 hmb, hrot]
            exact putWrite_eq_ok s d id0 b slot0 snm inm hne hsnm hinm hio
              hcache
          have hS1size : (putWriteOk s d id0 b snm inm).1.size =
              s.size + b.length := rfl
          have hseg1 : lookupA (putWriteOk s d id0 b snm inm).2.segs snm =
              some (writeAtBytes ((lookupA d.segs snm).getD [])
                s.size b) :=
            lookupA_insertA_self _ _ _
          have hmap1 : lookupA (putWriteOk s d id0 b snm inm).2.idxs inm =
              some (insertA ((lookupA d.idxs inm).getD []) id0
                ⟨s.index.length - 1, b.length, s.size⟩) :=
            lookupA_insertA_self _ _ _
          have hndr : (rest.map (fun op => op.1)).Nodup := by
            simp only [List.map_cons, List.nodup_cons] at hnd
            exact hnd.2
          have hid0 : id0 ∉ rest.map (fun op => op.1) := by
            simp only [List.map_cons, List.nodup_cons] at hnd
            exact hnd.1
          obtain ⟨s', d', hrun, hsize, ⟨hother, hk_lookup⟩,
            hpres, hblocks⟩ :=
            ih (putWriteOk s d id0 b snm inm).1
              (putWriteOk s d id0 b snm inm).2 bs'
              (by exact hbs')
              (by
                show s.inserts + 1 + rest.length ≤ s.capacity
                simp only [List.length_cons] at hins
                omega)
              (by exact hne) (by exact hsnm) (by exact hinm)
              (by exact hio) (by exact hcache) hndr
          simp only [hseg1, Option.getD_some] at hpres hblocks
          simp only [hmap1, Option.getD_some] at hother
          refine ⟨s', d', ?_, ?_, ⟨?_, ?_⟩, ?_, ?_⟩
          · simp only [Store.putSeq, hput]
            exact hrun
          · rw [hsize, hS1size]
            simp only [List.map_cons, List.sum_cons]
            omega
          · intro id' hid'
            simp only [List.map_cons, List.mem_cons] at hid'
            push_neg at hid'
            rw [hother id' hid'.2]
            exact lookupA_insertA_ne _ _ _ _ (fun h => hid'.1 h.symm)
          · intro k hk
            cases k with
            | zero =>
                simp only [List.get, List.getD_cons_zero, List.take_zero,
                  List.map_nil, List.sum_nil, Nat.add_zero]
                rw [hother id0 hid0, lookupA_insertA_self]
            | succ k =>
                have hkr : k < rest.length := by
                  simp only [List.length_cons] at hk
                  omega
                have hIH := hk_lookup k hkr
                have hmeq : (⟨(putWriteOk s d id0 b snm inm).1.index.length
                      - 1, (bs'.getD k []).length,
                    (putWriteOk s d id0 b snm inm).1.size +
                      ((bs'.take k).map List.length).sum⟩ : Meta) =
                    ⟨s.index.length - 1,
                      ((b :: bs').getD (k + 1) []).length,
                      s.size + (((b :: bs').take (k + 1)).map
                        List.length).sum⟩ := by
                  have hoff : (putWriteOk s d id0 b snm inm).1.size +
                      ((bs'.take k).map List.length).sum =
                      s.size + (((b :: bs').take (k + 1)).map
                        List.length).sum := by
                    rw [hS1size]
                    simp only [List.take_succ_cons, List.map_cons,
                      List.sum_cons]
                    omega
                  rw [← hoff, List.getD_cons_succ]
                  rfl
                rw [← hmeq]
                exact hIH
          · intro o l h1 h2
            rw [hpres o l
              (by rw [hS1size]; omega)
              (by
                rw [writeAtBytes_length]
                exact le_trans h2 (le_max_right _ _))]
            exact readRange_writeAtBytes_of_le _ _ _ _ _ h1 h2
          · intro k hk
            cases k with
            | zero =>
                simp only [List.getD_cons_zero, List.take_zero,
                  List.map_nil, List.sum_nil, Nat.add_zero]
                rw [hpres s.size b.length
                  (by rw [hS1size])
                  (by
                    rw [writeAtBytes_length]
                    exact le_max_left _ _)]
                exact readRange_writeAtBytes _ _ _
            | succ k =>
                have hkr : k < rest.length := by
                  simp only [List.length_cons] at hk
                  omega
                have hIH := hblocks k hkr
                have hoff : (putWriteOk s d id0 b snm inm).1.size +
                    ((bs'.take k).map List.length).sum =
                    s.size + (((b :: bs').take (k + 1)).map
                      List.length).sum := by
                  rw [hS1size]
                  simp only [List.take_succ_cons, List.map_cons,
                    List.sum_cons]
                  omega
                simp only [List.getD_cons_succ]
                rw [← hoff]
                exact hIH

/-- C6: after a run of successful Puts of pairwise-distinct identifiers
that all land in the same shard, every identifier is committed at the
offset that was the tracked size when its Put ran, the size counter
advances by each written length, the committed byte ranges are pairwise
disjoint, and reading each identifier's range back from the segment file
decodes to that identifier's own value. -/
theorem puts_same_shard_disjoint {V : Type} (s : Store V) (d : Disk)
    (ops : List (String × V × String × String × Nat))
    (bs : List (List Nat)) (snm inm : String)
    (hbs : ops.map (fun op => s.schema.marshal op.2.1) = bs.map some)
    (hrt : ∀ k, (hk : k < ops.length) →
      s.schema.unmarshal (bs.getD k []) = some (ops.get ⟨k, hk⟩).2.1)
    (hins : s.inserts + ops.length ≤ s.capacity)
    (hne : s.index.isEmpty = false)
    (hsnm : s.store.get? (s.index.length - 1) = some snm)
    (hinm : s.index.get? (s.index.length - 1) = some inm)
    (hio : d.ioErr inm = none)
    (hcache : s.indexCache = none)
    (hnd : (ops.map (fun op => op.1)).Nodup) :
    ∃ s' d', s.putSeq d ops = .ok () (s', d') ∧
      s'.size = s.size + (bs.map List.length).sum ∧
      ∀ k, (hk : k < ops.length) →
        ∃ m : Meta,
          lookupA ((lookupA d'.idxs inm).getD [])
            (ops.get ⟨k, hk⟩).1 = some m ∧
          m.offset = s.size + ((bs.take k).map List.length).sum ∧
          m.len = (bs.getD k []).length ∧
          (∀ l, (hl : l < ops.length) → k ≠ l →
            ∀ m', lookupA ((lookupA d'.idxs inm).getD [])
                (ops.get ⟨l, hl⟩).1 = some m' →
              m.offset + m.len ≤ m'.offset ∨
                m'.offset + m'.len ≤ m.offset) ∧
          s.schema.unmarshal
            (readRange ((lookupA d'.segs snm).getD []) m.offset m.len) =
            some (ops.get ⟨k, hk⟩).2.1 := by
  obtain ⟨s', d', hrun, hsize, ⟨hother, hk_lookup⟩, hpres, hblocks⟩ :=
    putSeq_sameShard s d ops bs snm inm hbs hins hne hsnm hinm hio
      hcache hnd
  have hblen : bs.length = ops.length := by
    have h := congrArg List.length hbs
    simpa using h.symm
  refine ⟨s', d', hrun, hsize, ?_⟩
  intro k hk
  refine ⟨⟨s.index.length - 1, (bs.getD k []).length,
    s.size + ((bs.take k).map List.length).sum⟩,
    hk_lookup k hk, rfl, rfl, ?_, ?_⟩
  · intro l hl hkl m' hm'
    rw [hk_lookup l hl] at hm'
    have hm'' := Option.some.inj hm'
    subst hm''
    show s.size + ((bs.take k).map List.length).sum +
        (bs.getD k []).length ≤
        s.size + ((bs.take l).map List.length).sum ∨
      s.size + ((bs.take l).map List.length).sum +
        (bs.getD l []).length ≤
        s.size + ((bs.take k).map List.length).sum
    rcases Nat.lt_or_ge k l with h | h
    · left
      have h1 := sum_take_succ bs k (by omega)
      have h2 := sum_take_mono bs (k + 1) l (by omega)
      omega
    · right
      have hlk : l < k := by omega
      have h1 := sum_take_succ bs l (by omega)
      have h2 := sum_take_mono bs (l + 1) k (by omega)
      omega
  · show s.schema.unmarshal
      (readRange ((lookupA d'.segs snm).getD [])
        (s.size + ((bs.take k).map List.length).sum)
        (bs.getD k []).length) = some (ops.get ⟨k, hk⟩).2.1
    rw [hblocks k hk]
    exact hrt k hk

/-- Concrete instance of the C6 theorem: two Puts of distinct ids "a"
and "b" into shard 0 of a fresh capacity-2 store. -/
theorem puts_same_shard_disjoint_witness :
    ∃ s' d', (demoStore 2).putSeq emptyDisk
        [("a", 1, "x", "y", 0), ("b", 2, "x", "y", 0)] = .ok () (s', d') ∧
      s'.size = (demoStore 2).size +
        (([[1], [2]] : List (List Nat)).map List.length).sum ∧
      ∀ k, (hk : k < ([("a", 1, "x", "y", 0), ("b", 2, "x", "y", 0)] :
          List (String × Nat × String × String × Nat)).length) →
        ∃ m : Meta,
          lookupA ((lookupA d'.idxs "i0").getD [])
            (([("a", 1, "x", "y", 0), ("b", 2, "x", "y", 0)] :
              List (String × Nat × String × String × Nat)).get
                ⟨k, hk⟩).1 = some m ∧
          m.offset = (demoStore 2).size +
            ((([[1], [2]] : List (List Nat)).take k).map
              List.length).sum ∧
          m.len = (([[1], [2]] : List (List Nat)).getD k []).length ∧
          (∀ l, (hl : l < ([("a", 1, "x", "y", 0), ("b", 2, "x", "y", 0)] :
              List (String × Nat × String × String × Nat)).length) →
            k ≠ l →
            ∀ m', lookupA ((lookupA d'.idxs "i0").getD [])
                (([("a", 1, "x", "y", 0), ("b", 2, "x", "y", 0)] :
                  List (String × Nat × String × String × Nat)).get
                    ⟨l, hl⟩).1 = some m' →
              m.offset + m.len ≤ m'.offset ∨
                m'.offset + m'.len ≤ m.offset) ∧
          (demoStore 2).schema.unmarshal
            (readRange ((lookupA d'.segs "s0").getD []) m.offset m.len) =
            some (([("a", 1, "x", "y", 0), ("b", 2, "x", "y", 0)] :
              List (String × Nat × String × String × Nat)).get
                ⟨k, hk⟩).2.1 :=
  puts_same_shard_disjoint (demoStore 2) emptyDisk
    [("a", 1, "x", "y", 0), ("b", 2, "x", "y", 0)] [[1], [2]] "s0" "i0"
    rfl
    (by
      intro k hk
      match k with
      | 0 => rfl
      | 1 => rfl
      | n + 2 =>
          simp only [List.length_cons, List.length_nil] at hk
          omega)
    (by decide) rfl rfl rfl rfl rfl (by decide)

end Ghost
